import Mathlib

/-!
# Student Analytics Dashboard: the filter and aggregation pipeline of `script.js`

A shallow embedding of the pure part of `src/script.js` (row normalisation,
age estimation, distinct values, top-N counts, age histogram, filtering and
the KPI percentage) together with theorems about it.

Modelling conventions.

* JavaScript values that the two parsing libraries hand over are `undefined`,
  `null`, booleans, numbers and strings (`JSVal`).  Numbers are modelled on
  their integer-valued range (`Int`); fractional numbers, `NaN` and the
  infinities are outside the model.
* JavaScript strings are modelled by Lean strings (sequences of Unicode
  scalar values); lone surrogates are outside the model.
* Host facilities whose result depends on the engine or the locale
  (`Date.parse`, `toLowerCase`, `localeCompare`) are parameters of the
  definitions that call them.
* Double arithmetic is exact arithmetic on `ℚ` followed by a rounding function
  `fl`, a parameter; `FloatModel` states what is assumed of it where a result
  depends on it, and `computeAge_float_exact` shows that `computeAge` computes
  the same with every such rounding as with none.  `flDouble` is the rounding
  to the nearest binary64 value on the normal range.
* Mutable globals (`RAW`, `FILTERED`) are passed and returned explicitly.
-/

namespace StudentDashboard

/-! ## JavaScript values and strings -/

/-- The JavaScript values a parsed cell can hold. -/
inductive JSVal where
  | undefined : JSVal
  | null : JSVal
  | bool (b : Bool) : JSVal
  | num (n : Int) : JSVal
  | str (s : String) : JSVal
  deriving DecidableEq, Repr

/-- The characters removed by `String.prototype.trim`: the ECMAScript
`WhiteSpace` and `LineTerminator` code points. -/
def isWhiteSpace (c : Char) : Bool :=
  let n := c.toNat
  n == 0x09 || n == 0x0A || n == 0x0B || n == 0x0C || n == 0x0D || n == 0x20 ||
  n == 0xA0 || n == 0x1680 || (0x2000 ≤ n && n ≤ 0x200A) || n == 0x2028 ||
  n == 0x2029 || n == 0x202F || n == 0x205F || n == 0x3000 || n == 0xFEFF

/-- `trim` on the character sequence: whitespace is dropped at both ends. -/
def trimChars (cs : List Char) : List Char :=
  ((cs.dropWhile isWhiteSpace).reverse.dropWhile isWhiteSpace).reverse

/-- `String.prototype.trim`. -/
def trim (s : String) : String := ⟨trimChars s.data⟩

/-- `String(v)` for the modelled values. -/
def toStr : JSVal → String
  | .undefined => "undefined"
  | .null => "null"
  | .bool true => "true"
  | .bool false => "false"
  | .num n => toString n
  | .str s => s

/-- JavaScript truthiness (`!!v`, `Boolean(v)`). -/
def truthy : JSVal → Bool
  | .undefined => false
  | .null => false
  | .bool b => b
  | .num n => n != 0
  | .str s => s != ""

/-- `const safe = (v) => (v === undefined || v === null ? "" : String(v).trim());` -/
def safe (v : JSVal) : String :=
  match v with
  | .undefined => ""
  | .null => ""
  | v => trim (toStr v)

/-! ## Records -/

/-- A raw parsed record: the own properties of the object, in order. -/
abbrev RawRow := List (String × JSVal)

/-- Property read `r.k`; a missing property reads as `undefined`. -/
def prop (r : RawRow) (k : String) : JSVal :=
  match r.lookup k with
  | some v => v
  | none => .undefined

/-- The fixed-shape record built by `normalizeRow`. -/
structure StudentRecord where
  name : String
  gender : String
  cat : String
  board : String
  medium : String
  city : String
  district : String
  state : String
  dob : String
  deriving DecidableEq, Repr

/-- `normalizeRow(r)`. -/
def normalizeRow (r : RawRow) : StudentRecord :=
  { name := safe (prop r "name"),
    gender := safe (prop r "gender"),
    cat := safe (prop r "cat"),
    board := safe (prop r "board"),
    medium := safe (prop r "medium"),
    city := safe (prop r "city"),
    district := safe (prop r "district"),
    state := safe (prop r "state"),
    dob := safe (prop r "dob") }

/-- The assignment `RAW = rows.map(normalizeRow).filter(r => r.name)` shared by
`autoLoad` and `handleFileInput`. -/
def loadRows (rows : List RawRow) : List StudentRecord :=
  (rows.map normalizeRow).filter (fun r => truthy (.str r.name))

/-- The nine field names of a `StudentRecord`. -/
inductive Field where
  | name | gender | cat | board | medium | city | district | state | dob
  deriving DecidableEq, Repr

/-- The property name read from the raw record for a field. -/
def Field.key : Field → String
  | .name => "name"
  | .gender => "gender"
  | .cat => "cat"
  | .board => "board"
  | .medium => "medium"
  | .city => "city"
  | .district => "district"
  | .state => "state"
  | .dob => "dob"

/-- Field read on a normalised record. -/
def StudentRecord.get (r : StudentRecord) : Field → String
  | .name => r.name
  | .gender => r.gender
  | .cat => r.cat
  | .board => r.board
  | .medium => r.medium
  | .city => r.city
  | .district => r.district
  | .state => r.state
  | .dob => r.dob

/-- A string has no whitespace character at either end. -/
def Trimmed (s : String) : Prop :=
  (∀ c, s.data.head? = some c → isWhiteSpace c = false) ∧
  (∀ c, s.data.getLast? = some c → isWhiteSpace c = false)

/-! ## Age estimation -/

/-- `Date.UTC(1899, 11, 30)`, the spreadsheet epoch, in milliseconds. -/
def excelEpoch : Int := -2209161600000

/-- The `TimeClip` operation applied by `new Date(t)`: a time value beyond
8.64e15 ms is `NaN` (`none`), a finite one is truncated to an integer. -/
def timeClip (t : ℚ) : Option Int :=
  if |t| ≤ 8640000000000000 then some (if 0 ≤ t then ⌊t⌋ else ⌈t⌉) else none

/-- The character class kept by `.replace(/[^0-9A-Za-z-\/ ]/g, "")`. -/
def keepsChar (c : Char) : Bool :=
  c.isDigit || c.isAlpha || c == '-' || c == '/' || c == ' '

/-- The date text handed to `Date.parse`:
`safe(dobStr).replace(/[^0-9A-Za-z-\/ ]/g,"").trim()`. -/
def dateText (v : JSVal) : String :=
  trim ⟨(safe v).data.filter keepsChar⟩

/-- `computeAge(dobStr)`.  `fl` rounds the exact result of an arithmetic
operation to a double, `parse` is the host `Date.parse` (`none` is `NaN`) and
`now` is `Date.now()`.  The local `d` is `null` (`none`) or a `Date` whose time
value is a number (`some (some t)`) or `NaN` (`some none`). -/
def computeAge (fl : ℚ → ℚ) (parse : String → Option Int) (now : Int) (dobStr : JSVal) :
    Option Int :=
  if !truthy dobStr then none
  else
    let d : Option (Option Int) :=
      match dobStr with
      | .num n => some (timeClip (fl ((excelEpoch : ℚ) + fl ((n : ℚ) * 86400000))))
      | v =>
        match parse (dateText v) with
        | some try1 => some (timeClip (try1 : ℚ))
        | none => none
    match d with
    | none => none
    | some none => none
    | some (some t) =>
      let diff : ℚ := fl ((now : ℚ) - (t : ℚ))
      let age : Int := ⌊fl (diff / 31557600000)⌋
      if 0 ≤ age ∧ age ≤ 100 then some age else none

/-! ## Distinct values and top-N counts -/

/-- Adding to a `Set`: insertion order, no duplicates. -/
def setAdd (acc : List String) (x : String) : List String :=
  if x ∈ acc then acc else acc ++ [x]

/-- The elements of `new Set(xs)` in iteration order. -/
def newSet (xs : List String) : List String :=
  xs.foldl setAdd []

/-- `uniqueSorted(arr)`; `cmp a b` is `a.localeCompare(b)` and the stable
`Array.prototype.sort` places `a` before `b` when the comparator is not
positive. -/
def uniqueSorted (cmp : String → String → Int) (arr : List JSVal) : List String :=
  (newSet ((arr.filter truthy).map safe)).insertionSort (fun a b => cmp a b ≤ 0)

/-- `map.set(k, v)` on the entries of a `Map` in insertion order. -/
def mapSet : List (String × Nat) → String → Nat → List (String × Nat)
  | [], k, v => [(k, v)]
  | (k', v') :: m, k, v => if k' = k then (k', v) :: m else (k', v') :: mapSet m k v

/-- `map.get(k) || 0`. -/
def mapGetOr0 (m : List (String × Nat)) (k : String) : Nat :=
  match m.lookup k with
  | some c => c
  | none => 0

/-- The body of the `forEach` in `topNCounts`. -/
def countStep (m : List (String × Nat)) (v : JSVal) : List (String × Nat) :=
  let k := safe v
  if k = "" then m else mapSet m k (mapGetOr0 m k + 1)

/-- The entries of the `Map` after the `forEach` of `topNCounts`. -/
def countMap (arr : List JSVal) : List (String × Nat) :=
  arr.foldl countStep []

/-- `topNCounts(arr, n)`: the comparator `(a,b) => b[1]-a[1]` of the stable sort
places `a` before `b` when `b[1] ≤ a[1]`; `slice(0, n)` keeps the first `n`. -/
def topNCounts (arr : List JSVal) (n : Nat := 10) : List (String × Nat) :=
  ((countMap arr).insertionSort (fun a b => b.2 ≤ a.2)).take n

/-! ## Filtering -/

/-- The values read from the five filter controls. -/
structure FilterState where
  state : String
  board : String
  gender : String
  category : String
  query : String
  deriving DecidableEq, Repr

/-- `hay.includes(q)`. -/
def includes (hay q : String) : Bool :=
  decide (q.data <:+: hay.data)

/-- The predicate passed to `RAW.filter` in `applyFilters`; `lower` is
`String.prototype.toLowerCase`. -/
def rowMatches (lower : String → String) (F : FilterState) (r : StudentRecord) : Bool :=
  let state := F.state
  let board := F.board
  let gender := F.gender
  let cat := F.category
  let q := lower F.query
  if state ≠ "" ∧ r.state ≠ state then false
  else if board ≠ "" ∧ r.board ≠ board then false
  else if gender ≠ "" ∧ r.gender ≠ gender then false
  else if cat ≠ "" ∧ r.cat ≠ cat then false
  else if q ≠ "" then
    let hay := lower (r.name ++ " " ++ r.city ++ " " ++ r.district ++ " " ++ r.state)
    if !includes hay q then false else true
  else true

/-- The new value of `FILTERED` computed by `applyFilters`. -/
def applyFilters (lower : String → String) (RAW : List StudentRecord) (F : FilterState) :
    List StudentRecord :=
  RAW.filter (rowMatches lower F)

/-! ## KPIs and the age histogram -/

/-- `Math.round`: the nearest integer, a tie going up. -/
def mathRound (x : ℚ) : Int := ⌊x + 1 / 2⌋

/-- Double division `a / b`; a result that is not finite (`NaN`, an infinity)
is `none`. -/
def jsDiv (fl : ℚ → ℚ) (a b : ℚ) : Option ℚ :=
  if b = 0 then none else some (fl (a / b))

/-- The `femalePct` of `updateKPIs`; `none` stands for a value that is not a
finite number. -/
def femalePct (fl : ℚ → ℚ) (data : List StudentRecord) : Option Int :=
  let total := data.length
  let females := (data.filter (fun r => r.gender = "F")).length
  if total ≠ 0 then
    match jsDiv fl females total with
    | some x => some (mathRound (fl (x * 100)))
    | none => none
  else some 0

/-- The `states` (and, with the board field, `boards`) KPI of `updateKPIs`. -/
def kpiDistinct (cmp : String → String → Int) (field : StudentRecord → String)
    (data : List StudentRecord) : Nat :=
  (uniqueSorted cmp (data.map (fun r => .str (field r)))).length

/-- The `ages` array of `updateCharts`. -/
def histogramAges (fl : ℚ → ℚ) (parse : String → Option Int) (now : Int)
    (data : List StudentRecord) : List Int :=
  (data.map (fun r => computeAge fl parse now (.str r.dob))).filterMap id

/-- The bucket index chosen in the `forEach` of the age histogram. -/
def bucketIndex (a : Int) : Nat :=
  if a ≤ 10 then 0
  else if a ≤ 15 then 1
  else if a ≤ 20 then 2
  else if a ≤ 25 then 3
  else if a ≤ 30 then 4
  else if a ≤ 35 then 5
  else if a ≤ 40 then 6
  else if a ≤ 45 then 7
  else if a ≤ 50 then 8
  else if a ≤ 60 then 9
  else 10

/-- `buckets[idx]++`. -/
def bump (buckets : List Nat) (idx : Nat) : List Nat :=
  buckets.set idx (buckets.getD idx 0 + 1)

/-- The `buckets` array of `updateCharts` after the `forEach`. -/
def ageBuckets (fl : ℚ → ℚ) (parse : String → Option Int) (now : Int)
    (data : List StudentRecord) : List Nat :=
  (histogramAges fl parse now data).foldl (fun buckets a => bump buckets (bucketIndex a))
    (List.replicate 11 0)


/-! ## Specification-side notions -/

/-- A raw record without a usable name: the property is absent, `undefined`,
`null`, or a string made of whitespace only. -/
def nameBlank (r : RawRow) : Bool :=
  match r.lookup "name" with
  | none => true
  | some .undefined => true
  | some .null => true
  | some (.str s) => s.data.all isWhiteSpace
  | some _ => false

/-- The conjunction of the active predicates of a filter state on a record. -/
def specMatches (lower : String → String) (F : FilterState) (r : StudentRecord) : Prop :=
  (F.state ≠ "" → r.state = F.state) ∧
  (F.board ≠ "" → r.board = F.board) ∧
  (F.gender ≠ "" → r.gender = F.gender) ∧
  (F.category ≠ "" → r.cat = F.category) ∧
  (F.query ≠ "" →
    (lower F.query).data <:+:
      (lower (r.name ++ " " ++ r.city ++ " " ++ r.district ++ " " ++ r.state)).data)

instance (lower : String → String) (F : FilterState) (r : StudentRecord) :
    Decidable (specMatches lower F r) := by
  unfold specMatches
  infer_instance

/-- A sample `toLowerCase`: the ASCII letters are lowered. -/
def asciiLower (s : String) : String := ⟨s.data.map Char.toLower⟩

/-- Two sample records. -/
def sampleData : List StudentRecord :=
  [ { name := "Anil Kumar", gender := "M", cat := "OBC", board := "CBSE", medium := "English",
      city := "Kochi", district := "Ernakulam", state := "Kerala", dob := "13-Jan-98" },
    { name := "Meera Nair", gender := "F", cat := "GEN", board := "ICSE", medium := "English",
      city := "Pune", district := "Pune", state := "Maharashtra", dob := "2001-07-24" } ]

/-- A sample filter: one state and a mixed-case query. -/
def sampleFilter : FilterState :=
  { state := "Maharashtra", board := "", gender := "", category := "", query := "NAIR" }

/-- The eleven age ranges of the histogram, in label order:
≤10, 11–15, 16–20, 21–25, 26–30, 31–35, 36–40, 41–45, 46–50, 51–60, >60. -/
def ageRanges : List (Int → Bool) :=
  [ fun a => decide (a ≤ 10),
    fun a => decide (11 ≤ a ∧ a ≤ 15),
    fun a => decide (16 ≤ a ∧ a ≤ 20),
    fun a => decide (21 ≤ a ∧ a ≤ 25),
    fun a => decide (26 ≤ a ∧ a ≤ 30),
    fun a => decide (31 ≤ a ∧ a ≤ 35),
    fun a => decide (36 ≤ a ∧ a ≤ 40),
    fun a => decide (41 ≤ a ∧ a ≤ 45),
    fun a => decide (46 ≤ a ∧ a ≤ 50),
    fun a => decide (51 ≤ a ∧ a ≤ 60),
    fun a => decide (60 < a) ]

/-! ## A sample host `Date.parse`

The date-only forms `YYYY`, `YYYY-MM` and `YYYY-MM-DD` of the ECMAScript date
time string format, read as UTC; every other text is rejected (`NaN`). -/

/-- ECMA-262 `DayFromYear`: the day number of 1 January of year `y`. -/
def dayFromYear (y : Int) : Int :=
  365 * (y - 1970) + (y - 1969) / 4 - (y - 1901) / 100 + (y - 1601) / 400

/-- Gregorian leap years. -/
def isLeapYear (y : Nat) : Bool :=
  (y % 4 == 0 && y % 100 != 0) || y % 400 == 0

/-- The lengths of the twelve months of year `y`. -/
def monthLengths (y : Nat) : List Nat :=
  [31, if isLeapYear y then 29 else 28, 31, 30, 31, 30, 31, 31, 30, 31, 30, 31]

/-- The time value of midnight UTC of a calendar date, `none` when the month
or the day is out of range. -/
def utcDate (y m d : Nat) : Option Int :=
  if 1 ≤ m ∧ m ≤ 12 ∧ 1 ≤ d ∧ d ≤ (monthLengths y).getD (m - 1) 0 then
    some ((dayFromYear y + (((monthLengths y).take (m - 1)).sum : Nat) + ((d - 1 : Nat) : Int))
      * 86400000)
  else none

/-- The number written by a sequence of decimal digits. -/
def digitsVal (cs : List Char) : Option Nat :=
  cs.foldl
    (fun acc c =>
      match acc with
      | some n => if c.isDigit then some (10 * n + (c.toNat - 48)) else none
      | none => none)
    (some 0)

/-- The sample `Date.parse`. -/
def isoDateParse (s : String) : Option Int :=
  match s.data with
  | [y1, y2, y3, y4] =>
    match digitsVal [y1, y2, y3, y4] with
    | some y => utcDate y 1 1
    | none => none
  | [y1, y2, y3, y4, '-', m1, m2] =>
    match digitsVal [y1, y2, y3, y4], digitsVal [m1, m2] with
    | some y, some m => utcDate y m 1
    | _, _ => none
  | [y1, y2, y3, y4, '-', m1, m2, '-', d1, d2] =>
    match digitsVal [y1, y2, y3, y4], digitsVal [m1, m2], digitsVal [d1, d2] with
    | some y, some m, some d => utcDate y m d
    | _, _, _ => none
  | _ => none

/-- The age for a birth time `t` in exact arithmetic: whole years of 365.25
days between `t` and `now`, unknown outside 0..100. -/
def ageOfTime (now t : Int) : Option Int :=
  let age := (now - t) / 31557600000
  if 0 ≤ age ∧ age ≤ 100 then some age else none

/-- A sample `localeCompare`: the order of the code points. -/
def codePointCompare (a b : String) : Int :=
  if a.data < b.data then -1 else if a = b then 0 else 1

/-- The number of elements of `arr` whose trimmed string form (`safe`, empty
for `null` and `undefined`) is `k`. -/
def valueCount (arr : List JSVal) (k : String) : Nat :=
  arr.countP (fun v => safe v = k)

/-- The distinct non-empty trimmed values of `arr`. -/
def distinctValues (arr : List JSVal) : List String :=
  ((arr.map safe).filter (fun k => k ≠ "")).dedup

/-- The distinct non-empty values of `arr` that `topNCounts arr n` leaves out. -/
def leftOut (arr : List JSVal) (n : Nat) : List String :=
  (distinctValues arr).filter (fun k => k ∉ (topNCounts arr n).map Prod.fst)

/-- The invariant of the counting loop of `topNCounts`: the entries of the map
have distinct non-empty keys, each with its positive number of occurrences so
far, every non-empty value seen has an entry, and the counts add up to the
number of non-empty values seen. -/
def CountInv (arr : List JSVal) (m : List (String × Nat)) : Prop :=
  (m.map Prod.fst).Nodup ∧
  (∀ p ∈ m, p.1 ≠ "" ∧ 0 < p.2 ∧ p.2 = valueCount arr p.1) ∧
  (∀ v ∈ arr, safe v ≠ "" → safe v ∈ m.map Prod.fst) ∧
  (m.map Prod.snd).sum = arr.countP (fun v => safe v ≠ "")

/-- The standard model of rounding a real result to the nearest double, on the
range used here: the relative error is at most `2⁻⁵³`, rounding is monotone,
and the integers up to `2⁵³` are exact. -/
def FloatModel (fl : ℚ → ℚ) : Prop :=
  (∀ x : ℚ, |fl x - x| ≤ |x| / 2 ^ 53) ∧
  (∀ x y : ℚ, x ≤ y → fl x ≤ fl y) ∧
  (∀ z : Int, |z| ≤ 2 ^ 53 → fl (z : ℚ) = (z : ℚ))

/-! ## Rounding to the nearest double -/

/-- The nearest integer, a tie going to the even one. -/
def roundHalfEven (x : ℚ) : Int :=
  let f := ⌊x⌋
  if x - f < 1 / 2 then f
  else if 1 / 2 < x - f then f + 1
  else if f % 2 = 0 then f else f + 1

/-- Rounding to the nearest binary64 value (53 significant bits, ties to
even), on the normal range: overflow and subnormal values are not modelled. -/
def flDouble (x : ℚ) : ℚ :=
  if x = 0 then 0
  else
    let e : Int := Int.log 2 |x| - 52
    (roundHalfEven (x / (2 : ℚ) ^ e) : ℚ) * (2 : ℚ) ^ e

/-- A view of 40 records, 23 of them with gender `F`. -/
def tieData : List StudentRecord :=
  List.replicate 23
      { name := "A", gender := "F", cat := "", board := "", medium := "", city := "",
        district := "", state := "", dob := "" } ++
    List.replicate 17
      { name := "B", gender := "M", cat := "", board := "", medium := "", city := "",
        district := "", state := "", dob := "" }

/-! ## Lemmas on `trim` and `safe` -/

theorem trimChars_eq_rdropWhile (cs : List Char) :
    trimChars cs = (cs.dropWhile isWhiteSpace).rdropWhile isWhiteSpace := rfl

theorem dropWhile_head_not (p : Char → Bool) (cs : List Char) (c : Char)
    (h : (cs.dropWhile p).head? = some c) : p c = false := by
  have := List.head?_dropWhile_not p cs
  rw [h] at this
  simpa using this

theorem trimChars_head (cs : List Char) (c : Char)
    (h : (trimChars cs).head? = some c) : isWhiteSpace c = false := by
  rw [trimChars_eq_rdropWhile] at h
  obtain ⟨t, ht⟩ := List.rdropWhile_prefix isWhiteSpace (l := cs.dropWhile isWhiteSpace)
  apply dropWhile_head_not isWhiteSpace cs c
  rw [← ht]
  cases hr : List.rdropWhile isWhiteSpace (List.dropWhile isWhiteSpace cs) with
  | nil => rw [hr] at h; simp at h
  | cons a l => rw [hr] at h; simpa using h

theorem trimChars_getLast (cs : List Char) (c : Char)
    (h : (trimChars cs).getLast? = some c) : isWhiteSpace c = false := by
  rw [trimChars_eq_rdropWhile] at h
  have hne : List.rdropWhile isWhiteSpace (List.dropWhile isWhiteSpace cs) ≠ [] := by
    intro h0; rw [h0] at h; simp at h
  have := List.rdropWhile_last_not isWhiteSpace (cs.dropWhile isWhiteSpace) hne
  rw [List.getLast?_eq_getLast _ hne] at h
  simp only [Option.some.injEq] at h
  rw [h] at this
  simpa using this

theorem trimChars_eq_nil_iff (cs : List Char) :
    trimChars cs = [] ↔ ∀ c ∈ cs, isWhiteSpace c = true := by
  rw [trimChars_eq_rdropWhile, List.rdropWhile_eq_nil_iff]
  constructor
  · intro h
    rw [← List.dropWhile_eq_nil_iff]
    cases hd : cs.dropWhile isWhiteSpace with
    | nil => rfl
    | cons a l =>
      have h1 : isWhiteSpace a = false := dropWhile_head_not isWhiteSpace cs a (by rw [hd]; rfl)
      have h2 : isWhiteSpace a = true := h a (by rw [hd]; simp)
      rw [h1] at h2; cases h2
  · intro h c hc
    exact h c ((List.dropWhile_suffix isWhiteSpace).subset hc)

theorem trim_trimmed (s : String) : Trimmed (trim s) :=
  ⟨fun c h => trimChars_head s.data c h, fun c h => trimChars_getLast s.data c h⟩

theorem trim_eq_empty_iff (s : String) :
    trim s = "" ↔ ∀ c ∈ s.data, isWhiteSpace c = true := by
  rw [← trimChars_eq_nil_iff]
  constructor
  · intro h
    have := congrArg String.data h
    simpa [trim] using this
  · intro h
    simp [trim, h]

theorem trim_of_not_whitespace_mem (s : String) (c : Char) (hc : c ∈ s.data)
    (hw : isWhiteSpace c = false) : trim s ≠ "" := by
  intro h
  have := (trim_eq_empty_iff s).1 h c hc
  rw [hw] at this; cases this

theorem subset_toDigitsCore (fuel n : Nat) (ds : List Char) :
    ds ⊆ Nat.toDigitsCore 10 fuel n ds := by
  induction fuel generalizing n ds with
  | zero => simp [Nat.toDigitsCore]
  | succ f ih =>
    simp only [Nat.toDigitsCore]
    split
    · exact List.subset_cons_self _ _
    · exact (List.subset_cons_self _ _).trans (ih _ _)

theorem digitChar_not_whitespace (d : Nat) (hd : d < 10) :
    isWhiteSpace (Nat.digitChar d) = false := by
  interval_cases d <;> decide

theorem natRepr_has_digit (n : Nat) :
    ∃ c ∈ (Nat.repr n).data, isWhiteSpace c = false := by
  refine ⟨Nat.digitChar (n % 10), ?_, digitChar_not_whitespace _ (Nat.mod_lt _ (by decide))⟩
  simp only [Nat.repr, Nat.toDigits, Nat.toDigitsCore, List.asString]
  split
  · simp
  · exact subset_toDigitsCore _ _ _ (by simp)

theorem intToString_has_visible (n : Int) :
    ∃ c ∈ (toString n).data, isWhiteSpace c = false := by
  cases n with
  | ofNat m => exact natRepr_has_digit m
  | negSucc m =>
    refine ⟨'-', ?_, by decide⟩
    show '-' ∈ ("-" ++ toString (Nat.succ m)).data
    simp

/-- The values for which `safe` yields the empty string. -/
theorem safe_eq_empty_iff (v : JSVal) :
    safe v = "" ↔
      v = .undefined ∨ v = .null ∨ ∃ s, v = .str s ∧ ∀ c ∈ s.data, isWhiteSpace c = true := by
  cases v with
  | undefined => simp [safe]
  | null => simp [safe]
  | bool b => cases b <;> simp [safe, toStr] <;> decide
  | num n =>
    simp only [safe, toStr, reduceCtorEq, false_and, exists_false, or_false, iff_false]
    obtain ⟨c, hc, hw⟩ := intToString_has_visible n
    exact trim_of_not_whitespace_mem _ c hc hw
  | str s => simp [safe, toStr, trim_eq_empty_iff]

/-! ## Row normalisation and loading -/

theorem safe_trimmed (v : JSVal) : Trimmed (safe v) := by
  cases v with
  | undefined => exact ⟨fun c h => by simp [safe] at h, fun c h => by simp [safe] at h⟩
  | null => exact ⟨fun c h => by simp [safe] at h, fun c h => by simp [safe] at h⟩
  | bool b => exact trim_trimmed _
  | num n => exact trim_trimmed _
  | str s => exact trim_trimmed _

theorem normalizeRow_get (r : RawRow) (f : Field) :
    (normalizeRow r).get f = safe (prop r f.key) := by
  cases f <;> rfl

theorem nameBlank_iff (r : RawRow) : nameBlank r = true ↔ (normalizeRow r).name = "" := by
  show _ ↔ safe (prop r "name") = ""
  rw [safe_eq_empty_iff]
  unfold nameBlank prop
  cases h : r.lookup "name" with
  | none => simp
  | some v => cases v <;> simp

/-- C7: `normalizeRow` is total and every one of the nine fields of its result
is a string without whitespace at either end: the empty string when the source
property is absent, `undefined` or `null`, and otherwise the trimmed string
form of the source value. -/
theorem normalizeRow_spec (r : RawRow) (f : Field) :
    Trimmed ((normalizeRow r).get f) ∧
    (normalizeRow r).get f =
      (match r.lookup f.key with
       | none => ""
       | some .undefined => ""
       | some .null => ""
       | some v => trim (toStr v)) := by
  rw [normalizeRow_get]
  refine ⟨safe_trimmed _, ?_⟩
  unfold prop
  cases h : r.lookup f.key with
  | none => rfl
  | some v => cases v <;> rfl

/-- C6: the dataset produced by a load has no record with an empty name; it is
the normalised form of exactly the raw records whose name is not blank, in the
original order, and no filtered view of it holds a record with an empty
name. -/
theorem loadRows_spec (rows : List RawRow) :
    (∀ r ∈ loadRows rows, r.name ≠ "") ∧
    loadRows rows = (rows.filter (fun r => !nameBlank r)).map normalizeRow ∧
    (∀ (lower : String → String) (F : FilterState),
      ∀ r ∈ applyFilters lower (loadRows rows) F, r.name ≠ "") := by
  have h1 : ∀ r ∈ loadRows rows, r.name ≠ "" := by
    intro r hr
    have := (List.mem_filter.1 hr).2
    simpa [truthy] using this
  refine ⟨h1, ?_, ?_⟩
  · unfold loadRows
    rw [List.filter_map]
    congr 1
    apply List.filter_congr
    intro r _
    have := nameBlank_iff r
    cases hb : nameBlank r
    · have h2 : ¬ (normalizeRow r).name = "" := fun h => by
        rw [this.2 h] at hb; cases hb
      simp [truthy, h2]
    · simp [truthy, this.1 hb]
  · intro lower F r hr
    exact h1 r (List.mem_filter.1 hr).1


/-! ## Filtering -/

theorem rowMatches_iff (lower : String → String) (hlower : lower "" = "")
    (F : FilterState) (r : StudentRecord) :
    rowMatches lower F r = true ↔ specMatches lower F r := by
  unfold rowMatches specMatches includes
  by_cases hq : F.query = ""
  · simp only [hq, hlower]
    split_ifs <;> simp_all
  · by_cases hl : lower F.query = ""
    · simp only [hl]
      split_ifs <;> simp_all
    · simp only []
      split_ifs <;> simp_all

/-- C1: the filtered sequence is exactly the records of the dataset, in their
original order, that satisfy every active predicate of the filter state; so it
is a sub-sequence of the dataset, each of its records satisfies every active
predicate, and the all-unset filter state returns the dataset unchanged. -/
theorem applyFilters_spec (lower : String → String) (hlower : lower "" = "")
    (RAW : List StudentRecord) (F : FilterState) :
    applyFilters lower RAW F = RAW.filter (fun r => decide (specMatches lower F r)) ∧
    (applyFilters lower RAW F).Sublist RAW ∧
    (∀ r ∈ applyFilters lower RAW F, r ∈ RAW ∧ specMatches lower F r) ∧
    applyFilters lower RAW ⟨"", "", "", "", ""⟩ = RAW := by
  refine ⟨?_, List.filter_sublist _, ?_, ?_⟩
  · apply List.filter_congr
    intro r _
    rw [Bool.eq_iff_iff, rowMatches_iff lower hlower]
    simp
  · intro r hr
    obtain ⟨h1, h2⟩ := List.mem_filter.1 hr
    exact ⟨h1, (rowMatches_iff lower hlower F r).1 h2⟩
  · apply List.filter_eq_self.2
    intro r _
    rw [rowMatches_iff lower hlower]
    simp [specMatches]


theorem applyFilters_spec_witness :
    asciiLower "" = "" ∧
    applyFilters asciiLower sampleData sampleFilter = sampleData.drop 1 ∧
    applyFilters asciiLower sampleData sampleFilter =
      sampleData.filter (fun r => decide (specMatches asciiLower sampleFilter r)) ∧
    (applyFilters asciiLower sampleData sampleFilter).Sublist sampleData ∧
    (∀ r ∈ applyFilters asciiLower sampleData sampleFilter,
      r ∈ sampleData ∧ specMatches asciiLower sampleFilter r) ∧
    applyFilters asciiLower sampleData ⟨"", "", "", "", ""⟩ = sampleData :=
  ⟨by decide, by decide, applyFilters_spec asciiLower (by decide) sampleData sampleFilter⟩


/-! ## Age estimation and the age histogram -/

/-- C5: `computeAge` is total; its result is unknown or a whole number between
0 and 100; it is a function of the dob value and the current time (and of the
host facilities); a string the host parser rejects gives unknown. -/
theorem computeAge_spec (fl : ℚ → ℚ) (parse : String → Option Int) (now : Int) (dob : JSVal) :
    (computeAge fl parse now dob = none ∨
      ∃ a : Int, computeAge fl parse now dob = some a ∧ 0 ≤ a ∧ a ≤ 100) ∧
    (∀ s : String, dob = .str s → parse (dateText (.str s)) = none →
      computeAge fl parse now dob = none) := by
  constructor
  · cases h : computeAge fl parse now dob with
    | none => exact Or.inl rfl
    | some a =>
      right
      refine ⟨a, rfl, ?_⟩
      have key : ∀ d : Option (Option Int),
          (match d with
            | none => none
            | some none => none
            | some (some t) =>
              let diff : ℚ := fl ((now : ℚ) - (t : ℚ))
              let age : Int := ⌊fl (diff / 31557600000)⌋
              if 0 ≤ age ∧ age ≤ 100 then some age else none) = some a →
          0 ≤ a ∧ a ≤ 100 := by
        intro d hd
        rcases d with _ | _ | t
        · cases hd
        · cases hd
        · simp only at hd
          split at hd
          · rename_i hr
            cases hd
            exact hr
          · cases hd
      unfold computeAge at h
      split at h
      · cases h
      · exact key _ h
  · intro s hs hp
    subst hs
    unfold computeAge
    split
    · rfl
    · simp [hp]

theorem computeAge_num_zero (fl : ℚ → ℚ) (parse : String → Option Int) (now : Int) :
    computeAge fl parse now (.num 0) = none := by
  simp [computeAge, truthy]


theorem foldl_bump (ages : List Int) (b0 b1 b2 b3 b4 b5 b6 b7 b8 b9 b10 : Nat) :
    ages.foldl (fun buckets a => bump buckets (bucketIndex a))
        [b0, b1, b2, b3, b4, b5, b6, b7, b8, b9, b10] =
      [ b0 + ages.countP (fun a => decide (a ≤ 10)),
        b1 + ages.countP (fun a => decide (11 ≤ a ∧ a ≤ 15)),
        b2 + ages.countP (fun a => decide (16 ≤ a ∧ a ≤ 20)),
        b3 + ages.countP (fun a => decide (21 ≤ a ∧ a ≤ 25)),
        b4 + ages.countP (fun a => decide (26 ≤ a ∧ a ≤ 30)),
        b5 + ages.countP (fun a => decide (31 ≤ a ∧ a ≤ 35)),
        b6 + ages.countP (fun a => decide (36 ≤ a ∧ a ≤ 40)),
        b7 + ages.countP (fun a => decide (41 ≤ a ∧ a ≤ 45)),
        b8 + ages.countP (fun a => decide (46 ≤ a ∧ a ≤ 50)),
        b9 + ages.countP (fun a => decide (51 ≤ a ∧ a ≤ 60)),
        b10 + ages.countP (fun a => decide (60 < a)) ] := by
  induction ages generalizing b0 b1 b2 b3 b4 b5 b6 b7 b8 b9 b10 with
  | nil => simp
  | cons a t ih =>
    rw [List.foldl_cons]
    have hcases : a ≤ 10 ∨ (11 ≤ a ∧ a ≤ 15) ∨ (16 ≤ a ∧ a ≤ 20) ∨ (21 ≤ a ∧ a ≤ 25) ∨
        (26 ≤ a ∧ a ≤ 30) ∨ (31 ≤ a ∧ a ≤ 35) ∨ (36 ≤ a ∧ a ≤ 40) ∨ (41 ≤ a ∧ a ≤ 45) ∨
        (46 ≤ a ∧ a ≤ 50) ∨ (51 ≤ a ∧ a ≤ 60) ∨ 60 < a := by omega
    rcases hcases with h | h | h | h | h | h | h | h | h | h | h
    all_goals
      obtain ⟨k, hk⟩ : ∃ k, bucketIndex a = k := ⟨_, rfl⟩
      have hk2 := hk
      unfold bucketIndex at hk2
      simp (disch := omega) only [if_pos, if_neg] at hk2
      subst hk2
      rw [hk]
      conv_lhs =>
        arg 2
        simp only [bump, List.set_cons_succ, List.set_cons_zero, List.getD_cons_succ,
          List.getD_cons_zero]
      rw [ih]
      simp only [List.countP_cons, decide_eq_true_eq]
      simp (disch := omega) only [if_pos, if_neg]
      simp only [List.cons.injEq, and_true]
      omega


theorem ageRanges_exactly_one (a : Int) : (ageRanges.filter (fun p => p a)).length = 1 := by
  have hcases : a ≤ 10 ∨ (11 ≤ a ∧ a ≤ 15) ∨ (16 ≤ a ∧ a ≤ 20) ∨ (21 ≤ a ∧ a ≤ 25) ∨
      (26 ≤ a ∧ a ≤ 30) ∨ (31 ≤ a ∧ a ≤ 35) ∨ (36 ≤ a ∧ a ≤ 40) ∨ (41 ≤ a ∧ a ≤ 45) ∨
      (46 ≤ a ∧ a ≤ 50) ∨ (51 ≤ a ∧ a ≤ 60) ∨ 60 < a := by omega
  rw [← List.countP_eq_length_filter]
  simp only [ageRanges, List.countP_cons, List.countP_nil, decide_eq_true_eq]
  rcases hcases with h | h | h | h | h | h | h | h | h | h | h
  all_goals
    simp (disch := omega) only [if_pos, if_neg]

theorem length_filterMap_eq_filter {α β : Type} (f : α → Option β) (l : List α) :
    (l.filterMap f).length = (l.filter (fun x => (f x).isSome)).length := by
  induction l with
  | nil => rfl
  | cons x t ih =>
    cases h : f x <;> simp [List.filterMap_cons, List.filter_cons, h, ih]

theorem ageRanges_countP_sum (ages : List Int) :
    (ageRanges.map (fun p => ages.countP p)).sum = ages.length := by
  induction ages with
  | nil => simp [ageRanges]
  | cons a t ih =>
    have hcases : a ≤ 10 ∨ (11 ≤ a ∧ a ≤ 15) ∨ (16 ≤ a ∧ a ≤ 20) ∨ (21 ≤ a ∧ a ≤ 25) ∨
        (26 ≤ a ∧ a ≤ 30) ∨ (31 ≤ a ∧ a ≤ 35) ∨ (36 ≤ a ∧ a ≤ 40) ∨ (41 ≤ a ∧ a ≤ 45) ∨
        (46 ≤ a ∧ a ≤ 50) ∨ (51 ≤ a ∧ a ≤ 60) ∨ 60 < a := by omega
    simp only [ageRanges, List.map_cons, List.map_nil, List.sum_cons, List.sum_nil,
      List.length_cons] at ih ⊢
    rcases hcases with h | h | h | h | h | h | h | h | h | h | h
    all_goals
      simp only [List.countP_cons, decide_eq_true_eq]
      simp (disch := omega) only [if_pos, if_neg]
      omega

/-- C3: the eleven bucket counts of the age histogram are, in label order, the
numbers of known ages in the ranges ≤10, 11–15, 16–20, 21–25, 26–30, 31–35,
36–40, 41–45, 46–50, 51–60 and >60; every age lies in exactly one range, and
the counts sum to the number of records whose age is known. -/
theorem ageBuckets_spec (fl : ℚ → ℚ) (parse : String → Option Int) (now : Int)
    (data : List StudentRecord) :
    ageBuckets fl parse now data =
      ageRanges.map (fun p => (histogramAges fl parse now data).countP p) ∧
    (∀ a : Int, (ageRanges.filter (fun p => p a)).length = 1) ∧
    (ageBuckets fl parse now data).sum =
      (data.filter (fun r => (computeAge fl parse now (.str r.dob)).isSome)).length ∧
    histogramAges fl parse now data =
      data.filterMap (fun r => computeAge fl parse now (.str r.dob)) := by
  have h1 : ageBuckets fl parse now data =
      ageRanges.map (fun p => (histogramAges fl parse now data).countP p) := by
    unfold ageBuckets
    have := foldl_bump (histogramAges fl parse now data) 0 0 0 0 0 0 0 0 0 0 0
    simp only [Nat.zero_add] at this
    exact this
  have h4 : histogramAges fl parse now data =
      data.filterMap (fun r => computeAge fl parse now (.str r.dob)) := by
    unfold histogramAges
    rw [List.filterMap_map]
    rfl
  refine ⟨h1, ageRanges_exactly_one, ?_, h4⟩
  rw [h1, ageRanges_countP_sum, h4, length_filterMap_eq_filter]


/-! ## Numeric serial dates -/

theorem timeClip_intCast (t : Int) :
    timeClip (t : ℚ) = if |t| ≤ 8640000000000000 then some t else none := by
  unfold timeClip
  have h : |(t : ℚ)| ≤ 8640000000000000 ↔ |t| ≤ 8640000000000000 := by
    rw [← Int.cast_abs]
    exact_mod_cast Iff.rfl
  simp only [h, Int.floor_intCast, Int.ceil_intCast, ite_self]

theorem floor_age_exact (now t : Int) :
    ⌊(((now : ℚ) - (t : ℚ)) / 31557600000)⌋ = (now - t) / 31557600000 := by
  have := Rat.floor_intCast_div_natCast (now - t) 31557600000
  push_cast at this
  exact this

/-- With exact arithmetic the serial branch computes the age of the day
`excelEpoch + n` days. -/
theorem computeAge_exact_num (parse : String → Option Int) (now n : Int) (hn : n ≠ 0)
    (ht : |excelEpoch + n * 86400000| ≤ 8640000000000000) :
    computeAge id parse now (.num n) = ageOfTime now (excelEpoch + n * 86400000) := by
  have hc : ((excelEpoch : ℚ) + (n : ℚ) * 86400000) = ((excelEpoch + n * 86400000 : Int) : ℚ) := by
    push_cast; rfl
  simp only [computeAge, truthy, id, hc, timeClip_intCast, if_pos ht, floor_age_exact, ageOfTime]
  simp [hn]

/-- With exact arithmetic the text branch computes the age of the parsed
time. -/
theorem computeAge_exact_str (parse : String → Option Int) (now : Int) (s : String) (t : Int)
    (hs : s ≠ "") (hp : parse (dateText (.str s)) = some t)
    (ht : |t| ≤ 8640000000000000) :
    computeAge id parse now (.str s) = ageOfTime now t := by
  simp only [computeAge, truthy, id, hp, timeClip_intCast, if_pos ht, floor_age_exact, ageOfTime]
  simp [hs]


/-- C4 (counterexample): with the clock at 2000-01-01T00:00:00Z a birth date
of 1899-12-30 has the age 100, which the text `1899-12-30` and the serial `1`
(one day later) both obtain, yet serial `0` gives unknown on every host: the
guard `!dobStr` returns before the serial branch for the number 0. -/
theorem computeAge_serial_zero_counterexample :
    ⌊(((946684800000 : Int) : ℚ) - (excelEpoch : ℚ)) / 31557600000⌋ = 100 ∧
    ageOfTime 946684800000 excelEpoch = some 100 ∧
    computeAge id isoDateParse 946684800000 (.num 0) = none ∧
    (∀ (fl : ℚ → ℚ) (parse : String → Option Int),
      computeAge fl parse 946684800000 (.num 0) ≠ ageOfTime 946684800000 excelEpoch) ∧
    computeAge id isoDateParse 946684800000 (.str "1899-12-30") = some 100 ∧
    computeAge id isoDateParse 946684800000 (.num 1) = some 100 := by
  have hage : ageOfTime 946684800000 excelEpoch = some 100 := by decide
  refine ⟨?_, hage, by simp [computeAge, truthy], ?_, ?_, ?_⟩
  · norm_num [excelEpoch, Int.floor_eq_iff]
  · intro fl parse
    rw [hage]
    simp [computeAge, truthy]
  · rw [computeAge_exact_str isoDateParse _ _ (-2209161600000) (by decide) (by decide)
      (by decide)]
    decide
  · rw [computeAge_exact_num isoDateParse _ _ (by decide) (by decide)]
    decide

/-- C4 (amended): for every clock at or after 2000-12-30T06:00:00Z, and for
every clock before 1899-12-30T00:00:00Z, `computeAge` of the numeric serial 0
yields the age of a birth date of 1899-12-30 UTC relative to that clock, whole
years of 365.25 days when in 0..100 and unknown otherwise; for these clocks
that age is unknown.  Holds on every host. -/
theorem computeAge_serial_zero_spec (fl : ℚ → ℚ) (parse : String → Option Int) (now : Int)
    (hnow : 978156000000 ≤ now ∨ now < excelEpoch) :
    computeAge fl parse now (.num 0) = ageOfTime now excelEpoch ∧
    ageOfTime now excelEpoch = none := by
  have hage : ageOfTime now excelEpoch = none := by
    unfold ageOfTime excelEpoch at *
    simp only []
    rw [if_neg (by omega)]
  refine ⟨?_, hage⟩
  rw [hage]
  simp [computeAge, truthy]

theorem computeAge_serial_zero_spec_witness :
    ((978156000000 : Int) ≤ 1600000000000 ∨ (1600000000000 : Int) < excelEpoch) ∧
    computeAge id isoDateParse 1600000000000 (.num 0) = ageOfTime 1600000000000 excelEpoch ∧
    ageOfTime 1600000000000 excelEpoch = none :=
  ⟨Or.inl (by decide),
    computeAge_serial_zero_spec id isoDateParse 1600000000000 (Or.inl (by decide))⟩

/-- The age the histogram uses for a stored record is computed from the
string in its `dob` field, whatever the type of the raw value was. -/
theorem histogramAges_normalizeRow (fl : ℚ → ℚ) (parse : String → Option Int) (now : Int)
    (r : RawRow) :
    histogramAges fl parse now [normalizeRow r] =
      (computeAge fl parse now (.str (safe (prop r "dob")))).toList := by
  unfold histogramAges
  cases h : computeAge fl parse now (.str (safe (prop r "dob"))) <;>
    simp [normalizeRow, h]

/-- C10 (failing input): a raw record whose dob is the serial 36000
(1998-07-24) is stored with the dob text `36000`; with the clock at
2020-09-13T12:26:40Z the serial branch of `computeAge` gives the age 22, but
the histogram computes the age from the stored text, which the date parser
does not read as a serial: the record has no age in the histogram.  Likewise
the serial 2000 (1905-06-21, age unknown) is stored as the text `2000`, which
every conforming parser reads as the year 2000: the histogram counts the
age 20. -/
theorem stored_serial_age_diverges :
    (normalizeRow [("name", .str "A"), ("dob", .num 36000)]).dob = "36000" ∧
    computeAge id isoDateParse 1600000000000 (.num 36000) = some 22 ∧
    histogramAges id isoDateParse 1600000000000
      (loadRows [[("name", .str "A"), ("dob", .num 36000)]]) = [] ∧
    computeAge id isoDateParse 1600000000000 (.num 2000) = none ∧
    histogramAges id isoDateParse 1600000000000
      (loadRows [[("name", .str "A"), ("dob", .num 2000)]]) = [20] := by
  refine ⟨by decide, ?_, ?_, ?_, ?_⟩
  · rw [computeAge_exact_num isoDateParse _ _ (by decide) (by decide)]
    decide
  · have hl : loadRows [[("name", .str "A"), ("dob", .num 36000)]] =
        [normalizeRow [("name", .str "A"), ("dob", .num 36000)]] := by decide
    have hs : safe (prop [("name", .str "A"), ("dob", .num 36000)] "dob") = "36000" := by
      decide
    have hd : dateText (.str "36000") = "36000" := by decide
    have hp : isoDateParse "36000" = none := by decide
    have ht : truthy (.str "36000") = true := by decide
    rw [hl, histogramAges_normalizeRow, hs]
    simp [computeAge, ht, hd, hp]
  · rw [computeAge_exact_num isoDateParse _ _ (by decide) (by decide)]
    decide
  · have hl : loadRows [[("name", .str "A"), ("dob", .num 2000)]] =
        [normalizeRow [("name", .str "A"), ("dob", .num 2000)]] := by decide
    have hs : safe (prop [("name", .str "A"), ("dob", .num 2000)] "dob") = "2000" := by
      decide
    have hd : dateText (.str "2000") = "2000" := by decide
    have hp : isoDateParse "2000" = some 946684800000 := by decide
    have ht : truthy (.str "2000") = true := by decide
    rw [hl, histogramAges_normalizeRow, hs,
      computeAge_exact_str isoDateParse _ _ 946684800000 (by decide) (by decide) (by decide)]
    decide


/-! ## Distinct values -/

theorem mem_foldl_setAdd (xs acc : List String) (x : String) :
    x ∈ xs.foldl setAdd acc ↔ x ∈ acc ∨ x ∈ xs := by
  induction xs generalizing acc with
  | nil => simp
  | cons y t ih =>
    rw [List.foldl_cons, ih]
    unfold setAdd
    split <;> rename_i hy
    · constructor
      · rintro (h | h)
        · exact Or.inl h
        · exact Or.inr (List.mem_cons_of_mem _ h)
      · rintro (h | h)
        · exact Or.inl h
        · rcases List.mem_cons.1 h with rfl | h
          · exact Or.inl hy
          · exact Or.inr h
    · simp only [List.mem_append, List.mem_singleton, List.mem_cons]
      tauto

theorem nodup_foldl_setAdd (xs acc : List String) (h : acc.Nodup) :
    (xs.foldl setAdd acc).Nodup := by
  induction xs generalizing acc with
  | nil => exact h
  | cons y t ih =>
    rw [List.foldl_cons]
    apply ih
    unfold setAdd
    split <;> rename_i hy
    · exact h
    · exact List.Nodup.append h (List.nodup_singleton y) (by simpa using hy)

theorem mem_newSet (xs : List String) (x : String) : x ∈ newSet xs ↔ x ∈ xs := by
  simp [newSet, mem_foldl_setAdd]

theorem nodup_newSet (xs : List String) : (newSet xs).Nodup :=
  nodup_foldl_setAdd xs [] List.nodup_nil

theorem filter_truthy_map_safe (arr : List String) (harr : ∀ s ∈ arr, trim s = s) :
    ((arr.map JSVal.str).filter truthy).map safe = arr.filter (fun s => s ≠ "") := by
  induction arr with
  | nil => rfl
  | cons s t ih =>
    have ht := ih (fun x hx => harr x (List.mem_cons_of_mem _ hx))
    have hs : trim s = s := harr s (List.mem_cons_self _ _)
    by_cases h : s = ""
    · simp [List.filter_cons, truthy, h, ht]
    · simp [List.filter_cons, truthy, h, ht, safe, toStr, hs]

/-- C8: for an array of field values (trimmed strings) and a consistent
comparator, `uniqueSorted` returns exactly the distinct non-empty values: no
empty string, no duplicates, ascending for the comparator, every non-empty
value of the array present, so that its length (the value of the states and
boards KPIs) is the number of distinct non-empty values. -/
theorem uniqueSorted_spec (cmp : String → String → Int)
    (htotal : ∀ a b, cmp a b ≤ 0 ∨ cmp b a ≤ 0)
    (htrans : ∀ a b c, cmp a b ≤ 0 → cmp b c ≤ 0 → cmp a c ≤ 0)
    (arr : List String) (harr : ∀ s ∈ arr, trim s = s) :
    "" ∉ uniqueSorted cmp (arr.map JSVal.str) ∧
    (uniqueSorted cmp (arr.map JSVal.str)).Nodup ∧
    (uniqueSorted cmp (arr.map JSVal.str)).Sorted (fun a b => cmp a b ≤ 0) ∧
    (∀ s, s ∈ uniqueSorted cmp (arr.map JSVal.str) ↔ s ∈ arr ∧ s ≠ "") ∧
    (uniqueSorted cmp (arr.map JSVal.str)).length =
      (arr.filter (fun s => s ≠ "")).toFinset.card ∧
    (∀ (field : StudentRecord → String) (data : List StudentRecord), data.map field = arr →
      kpiDistinct cmp field data = (arr.filter (fun s => s ≠ "")).toFinset.card) := by
  have hperm : (uniqueSorted cmp (arr.map JSVal.str)).Perm
      (newSet (arr.filter (fun s => s ≠ ""))) := by
    unfold uniqueSorted
    rw [filter_truthy_map_safe arr harr]
    exact List.perm_insertionSort _ _
  have hmem : ∀ s, s ∈ uniqueSorted cmp (arr.map JSVal.str) ↔ s ∈ arr ∧ s ≠ "" := by
    intro s
    rw [hperm.mem_iff, mem_newSet, List.mem_filter]
    simp
  have hnodup : (uniqueSorted cmp (arr.map JSVal.str)).Nodup :=
    hperm.nodup_iff.2 (nodup_newSet _)
  have hlen : (uniqueSorted cmp (arr.map JSVal.str)).length =
      (arr.filter (fun s => s ≠ "")).toFinset.card := by
    rw [← List.toFinset_card_of_nodup hnodup]
    congr 1
    ext s
    simp only [List.mem_toFinset, hmem, List.mem_filter]
    simp
  refine ⟨fun h => ((hmem "").1 h).2 rfl, hnodup, ?_, hmem, hlen, ?_⟩
  · haveI : IsTotal String (fun a b => cmp a b ≤ 0) := ⟨htotal⟩
    haveI : IsTrans String (fun a b => cmp a b ≤ 0) := ⟨htrans⟩
    exact List.sorted_insertionSort _ _
  · intro field data hd
    rw [← hlen, ← hd]
    simp [kpiDistinct, List.map_map]
    rfl


/-- The restriction to field values matters: a whitespace-only string passes
`filter(Boolean)` and is trimmed to the empty string afterwards, and the
number 0 is dropped although its string form is not empty. -/
theorem uniqueSorted_untrimmed :
    uniqueSorted codePointCompare [.str "  ", .num 0] = [""] := by
  decide

theorem codePointCompare_le_iff (a b : String) : codePointCompare a b ≤ 0 ↔ a ≤ b := by
  unfold codePointCompare
  have hlt : a.data < b.data ↔ a < b := String.lt_iff_toList_lt.symm
  simp only [hlt]
  rcases lt_trichotomy a b with h | h | h
  · simp [h, le_of_lt h]
  · subst h; simp
  · have h1 : ¬ a < b := not_lt.2 (le_of_lt h)
    have h2 : a ≠ b := ne_of_gt h
    simp [h1, h2, not_le.2 h]

theorem codePointCompare_total (a b : String) :
    codePointCompare a b ≤ 0 ∨ codePointCompare b a ≤ 0 := by
  simp only [codePointCompare_le_iff]
  exact le_total a b

theorem codePointCompare_trans (a b c : String) (h1 : codePointCompare a b ≤ 0)
    (h2 : codePointCompare b c ≤ 0) : codePointCompare a c ≤ 0 := by
  simp only [codePointCompare_le_iff] at *
  exact le_trans h1 h2

theorem uniqueSorted_spec_witness :
    (∀ s ∈ ["Kerala", "", "Goa", "Kerala", "Assam"], trim s = s) ∧
    uniqueSorted codePointCompare
      (["Kerala", "", "Goa", "Kerala", "Assam"].map JSVal.str) = ["Assam", "Goa", "Kerala"] ∧
    (uniqueSorted codePointCompare
      (["Kerala", "", "Goa", "Kerala", "Assam"].map JSVal.str)).length =
      (["Kerala", "", "Goa", "Kerala", "Assam"].filter (fun s => s ≠ "")).toFinset.card :=
  ⟨by decide, by decide,
    (uniqueSorted_spec codePointCompare codePointCompare_total codePointCompare_trans
      ["Kerala", "", "Goa", "Kerala", "Assam"] (by decide)).2.2.2.2.1⟩


/-! ## Top-N counts -/

theorem mem_keys_mapSet (m : List (String × Nat)) (k : String) (v : Nat) (x : String) :
    x ∈ (mapSet m k v).map Prod.fst ↔ x = k ∨ x ∈ m.map Prod.fst := by
  induction m with
  | nil => simp [mapSet]
  | cons p t ih =>
    obtain ⟨a, b⟩ := p
    unfold mapSet
    split <;> rename_i h
    · subst h
      simp
    · simp only [List.map_cons, List.mem_cons, ih]
      tauto

theorem nodup_keys_mapSet (m : List (String × Nat)) (k : String) (v : Nat)
    (h : (m.map Prod.fst).Nodup) : ((mapSet m k v).map Prod.fst).Nodup := by
  induction m with
  | nil => simp [mapSet]
  | cons p t ih =>
    obtain ⟨a, b⟩ := p
    rw [List.map_cons, List.nodup_cons] at h
    unfold mapSet
    split <;> rename_i hk
    · rw [List.map_cons, List.nodup_cons]
      exact h
    · rw [List.map_cons, List.nodup_cons]
      refine ⟨?_, ih h.2⟩
      rw [mem_keys_mapSet]
      rintro (h1 | h1)
      · exact hk h1
      · exact h.1 h1

theorem mem_mapSet (m : List (String × Nat)) (k : String) (v : Nat) (p : String × Nat)
    (h : (m.map Prod.fst).Nodup) (hp : p ∈ mapSet m k v) :
    p = (k, v) ∨ (p ∈ m ∧ p.1 ≠ k) := by
  induction m with
  | nil =>
    left
    simpa [mapSet] using hp
  | cons q t ih =>
    obtain ⟨a, b⟩ := q
    rw [List.map_cons, List.nodup_cons] at h
    unfold mapSet at hp
    split at hp <;> rename_i hk
    · subst hk
      rcases List.mem_cons.1 hp with h1 | h1
      · exact Or.inl h1
      · right
        refine ⟨List.mem_cons_of_mem _ h1, ?_⟩
        intro h2
        exact h.1 (List.mem_map.2 ⟨p, h1, h2⟩)
    · rcases List.mem_cons.1 hp with h1 | h1
      · right
        subst h1
        exact ⟨List.mem_cons_self _ _, hk⟩
      · rcases ih h.2 h1 with h2 | h2
        · exact Or.inl h2
        · exact Or.inr ⟨List.mem_cons_of_mem _ h2.1, h2.2⟩

theorem sum_mapSet_succ (m : List (String × Nat)) (k : String) :
    ((mapSet m k (mapGetOr0 m k + 1)).map Prod.snd).sum = (m.map Prod.snd).sum + 1 := by
  induction m with
  | nil => simp [mapSet, mapGetOr0]
  | cons q t ih =>
    obtain ⟨a, b⟩ := q
    unfold mapSet
    split <;> rename_i hk
    · subst hk
      simp [mapGetOr0, List.lookup_cons]
      omega
    · have hne : (k == a) = false := by
        simpa using fun h : k = a => hk h.symm
      have hget : mapGetOr0 ((a, b) :: t) k = mapGetOr0 t k := by
        simp [mapGetOr0, List.lookup_cons, hne]
      rw [hget]
      simp only [List.map_cons, List.sum_cons, ih]
      omega

theorem mapGetOr0_of_mem (m : List (String × Nat)) (k : String) (c : Nat)
    (h : (m.map Prod.fst).Nodup) (hp : (k, c) ∈ m) : mapGetOr0 m k = c := by
  induction m with
  | nil => simp at hp
  | cons q t ih =>
    obtain ⟨a, b⟩ := q
    rw [List.map_cons, List.nodup_cons] at h
    rcases List.mem_cons.1 hp with h1 | h1
    · cases h1
      simp [mapGetOr0, List.lookup_cons]
    · have hne : (k == a) = false := by
        simp only [beq_eq_false_iff_ne, ne_eq]
        intro h2
        exact h.1 (List.mem_map.2 ⟨(k, c), h1, h2⟩)
      have := ih h.2 h1
      simpa [mapGetOr0, List.lookup_cons, hne] using this

theorem mapGetOr0_of_not_mem (m : List (String × Nat)) (k : String)
    (h : k ∉ m.map Prod.fst) : mapGetOr0 m k = 0 := by
  induction m with
  | nil => rfl
  | cons q t ih =>
    obtain ⟨a, b⟩ := q
    simp only [List.map_cons, List.mem_cons, not_or] at h
    have hne : (k == a) = false := by simpa using h.1
    have := ih h.2
    simpa [mapGetOr0, List.lookup_cons, hne] using this


theorem valueCount_append (arr : List JSVal) (v : JSVal) (k : String) :
    valueCount (arr ++ [v]) k = valueCount arr k + if safe v = k then 1 else 0 := by
  unfold valueCount
  rw [List.countP_append]
  by_cases h : safe v = k <;> simp [List.countP_cons, h]

theorem countInv_nil : CountInv [] [] := by
  refine ⟨List.nodup_nil, ?_, ?_, rfl⟩
  · intro p hp
    cases hp
  · intro v hv
    cases hv

theorem countInv_step (arr : List JSVal) (m : List (String × Nat)) (v : JSVal)
    (h : CountInv arr m) : CountInv (arr ++ [v]) (countStep m v) := by
  obtain ⟨hnd, hcount, hcompl, hsum⟩ := h
  unfold countStep
  by_cases hk : safe v = ""
  · simp only [hk, if_true]
    refine ⟨hnd, ?_, ?_, ?_⟩
    · intro p hp
      obtain ⟨h1, h2, h3⟩ := hcount p hp
      refine ⟨h1, h2, ?_⟩
      rw [valueCount_append, hk, if_neg (fun h => h1 h.symm), Nat.add_zero]
      exact h3
    · intro w hw hne
      rcases List.mem_append.1 hw with h1 | h1
      · exact hcompl w h1 hne
      · rw [List.mem_singleton] at h1
        subst h1
        exact absurd hk hne
    · rw [List.countP_append, hsum]
      simp [List.countP_cons, hk]
  · simp only [hk, if_false]
    have hget : mapGetOr0 m (safe v) = valueCount arr (safe v) := by
      by_cases hmem : safe v ∈ m.map Prod.fst
      · obtain ⟨p, hp, hp1⟩ := List.mem_map.1 hmem
        obtain ⟨a, c⟩ := p
        simp only at hp1
        subst hp1
        rw [mapGetOr0_of_mem m _ c hnd hp]
        exact (hcount _ hp).2.2
      · rw [mapGetOr0_of_not_mem m _ hmem]
        symm
        unfold valueCount
        rw [List.countP_eq_zero]
        intro w hw hws
        simp only [decide_eq_true_eq] at hws
        apply hmem
        rw [← hws]
        exact hcompl w hw (by rw [hws]; exact hk)
    refine ⟨nodup_keys_mapSet m _ _ hnd, ?_, ?_, ?_⟩
    · intro p hp
      rcases mem_mapSet m _ _ p hnd hp with h1 | ⟨h1, h2⟩
      · subst h1
        refine ⟨hk, Nat.succ_pos _, ?_⟩
        simp only
        rw [valueCount_append, if_pos rfl, hget]
      · obtain ⟨h3, h4, h5⟩ := hcount p h1
        refine ⟨h3, h4, ?_⟩
        rw [valueCount_append, if_neg (fun h => h2 h.symm), Nat.add_zero]
        exact h5
    · intro w hw hne
      rw [mem_keys_mapSet]
      rcases List.mem_append.1 hw with h1 | h1
      · exact Or.inr (hcompl w h1 hne)
      · rw [List.mem_singleton] at h1
        subst h1
        exact Or.inl rfl
    · rw [sum_mapSet_succ, hsum, List.countP_append]
      simp [List.countP_cons, hk]

theorem countInv_countMap (arr : List JSVal) : CountInv arr (countMap arr) := by
  induction arr using List.reverseRecOn with
  | nil => exact countInv_nil
  | append_singleton l v ih =>
    have : countMap (l ++ [v]) = countStep (countMap l) v := by
      simp [countMap, List.foldl_append]
    rw [this]
    exact countInv_step l _ v ih


/-- C2: `topNCounts arr n` returns `n` pairs, or one pair for each distinct
non-empty value when there are fewer than `n` of them, so at most `n`; the
values are pairwise distinct and non-empty, each occurs in `arr` and comes with
the number of elements of `arr` whose trimmed string form is that value, in
non-increasing order of count; every distinct non-empty value left out has a
count no greater than any returned count, and the returned counts plus the
counts of the left-out values add up to the number of elements of `arr` whose
trimmed string form is non-empty. -/
theorem topNCounts_spec (arr : List JSVal) (n : Nat) :
    (topNCounts arr n).length = min n (distinctValues arr).length ∧
    (topNCounts arr n).length ≤ n ∧
    ((topNCounts arr n).map Prod.fst).Nodup ∧
    (∀ p ∈ topNCounts arr n, p.1 ∈ distinctValues arr ∧ 0 < p.2 ∧ p.2 = valueCount arr p.1) ∧
    (∀ p ∈ topNCounts arr n, p.1 ≠ "" ∧ p.2 = valueCount arr p.1) ∧
    (topNCounts arr n).Pairwise (fun a b => b.2 ≤ a.2) ∧
    (∀ k, k ≠ "" → (∃ v ∈ arr, safe v = k) → k ∉ (topNCounts arr n).map Prod.fst →
      ∀ p ∈ topNCounts arr n, valueCount arr k ≤ p.2) ∧
    (∀ k, k ∈ leftOut arr n ↔
      k ≠ "" ∧ (∃ v ∈ arr, safe v = k) ∧ k ∉ (topNCounts arr n).map Prod.fst) ∧
    (leftOut arr n).Nodup ∧
    ((topNCounts arr n).map Prod.snd).sum + ((leftOut arr n).map (valueCount arr)).sum =
      arr.countP (fun v => safe v ≠ "") := by
  obtain ⟨hnd, hcount, hcompl, hsum⟩ := countInv_countMap arr
  set S := (countMap arr).insertionSort (fun a b => b.2 ≤ a.2) with hS
  have hperm : S.Perm (countMap arr) := List.perm_insertionSort _ _
  have hsorted : S.Pairwise (fun a b => b.2 ≤ a.2) := by
    haveI : IsTotal (String × Nat) (fun a b => b.2 ≤ a.2) := ⟨fun a b => Nat.le_total _ _⟩
    haveI : IsTrans (String × Nat) (fun a b => b.2 ≤ a.2) :=
      ⟨fun a b c h1 h2 => Nat.le_trans h2 h1⟩
    exact List.sorted_insertionSort _ _
  have hout : topNCounts arr n = S.take n := rfl
  have hsplit : S.take n ++ S.drop n = S := List.take_append_drop n S
  have hSnd : (S.map Prod.fst).Nodup := (hperm.map Prod.fst).nodup_iff.2 hnd
  have hSnd2 : ((S.take n).map Prod.fst ++ (S.drop n).map Prod.fst).Nodup := by
    rw [← List.map_append, hsplit]
    exact hSnd
  have hmemS : ∀ p, p ∈ S ↔ p ∈ countMap arr := fun p => hperm.mem_iff
  have hmemOut : ∀ p ∈ S.take n, p ∈ countMap arr := fun p hp =>
    (hmemS p).1 (List.mem_of_mem_take hp)
  have hmemRest : ∀ p ∈ S.drop n, p ∈ countMap arr := fun p hp =>
    (hmemS p).1 (List.mem_of_mem_drop hp)
  -- a value with an occurrence and no returned entry has its entry in the rest
  have hrest : ∀ k, k ≠ "" → (∃ v ∈ arr, safe v = k) → k ∉ (S.take n).map Prod.fst →
      ∃ p ∈ S.drop n, p.1 = k := by
    intro k hk hex hnot
    obtain ⟨v, hv, hvk⟩ := hex
    have hkm : k ∈ (countMap arr).map Prod.fst := by
      rw [← hvk]
      exact hcompl v hv (by rw [hvk]; exact hk)
    obtain ⟨p, hp, hpk⟩ := List.mem_map.1 hkm
    have hpS : p ∈ S.take n ++ S.drop n := by
      rw [hsplit]
      exact (hmemS p).2 hp
    rcases List.mem_append.1 hpS with h1 | h1
    · exact absurd (List.mem_map.2 ⟨p, h1, hpk⟩) hnot
    · exact ⟨p, h1, hpk⟩
  have hdist : ∀ k, k ∈ distinctValues arr ↔ k ≠ "" ∧ ∃ v ∈ arr, safe v = k := by
    intro k
    unfold distinctValues
    simp only [List.mem_dedup, List.mem_filter, List.mem_map, decide_eq_true_eq]
    tauto
  have hleft : ∀ k, k ∈ leftOut arr n ↔
      k ≠ "" ∧ (∃ v ∈ arr, safe v = k) ∧ k ∉ (topNCounts arr n).map Prod.fst := by
    intro k
    unfold leftOut
    rw [List.mem_filter, hdist]
    simp only [decide_eq_true_eq]
    tauto
  have hleftnd : (leftOut arr n).Nodup :=
    (List.nodup_dedup _).filter _
  have hkeys : ∀ k, k ∈ (countMap arr).map Prod.fst ↔ k ∈ distinctValues arr := by
    intro k
    rw [hdist]
    constructor
    · intro hk
      obtain ⟨p, hp, hpk⟩ := List.mem_map.1 hk
      obtain ⟨h1, h2, h3⟩ := hcount p hp
      subst hpk
      refine ⟨h1, ?_⟩
      have hpos : 0 < valueCount arr p.1 := h3 ▸ h2
      unfold valueCount at hpos
      obtain ⟨v, hv, hvk⟩ := List.countP_pos_iff.1 hpos
      exact ⟨v, hv, by simpa using hvk⟩
    · rintro ⟨h1, v, hv, hvk⟩
      rw [← hvk]
      exact hcompl v hv (by rw [hvk]; exact h1)
  have hlenM : (countMap arr).length = (distinctValues arr).length := by
    have hp : ((countMap arr).map Prod.fst).Perm (distinctValues arr) :=
      (List.perm_ext_iff_of_nodup hnd (List.nodup_dedup _)).2 hkeys
    rw [← hp.length_eq, List.length_map]
  have hleftperm : (leftOut arr n).Perm ((S.drop n).map Prod.fst) := by
    rw [List.perm_ext_iff_of_nodup hleftnd (List.nodup_append.1 hSnd2).2.1]
    intro k
    rw [hleft, hout]
    constructor
    · rintro ⟨h1, h2, h3⟩
      obtain ⟨p, hp, hpk⟩ := hrest k h1 h2 h3
      exact List.mem_map.2 ⟨p, hp, hpk⟩
    · intro hk
      obtain ⟨p, hp, hpk⟩ := List.mem_map.1 hk
      obtain ⟨h1, h2, h3⟩ := hcount p (hmemRest p hp)
      subst hpk
      refine ⟨h1, ?_, ?_⟩
      · have hpos : 0 < valueCount arr p.1 := h3 ▸ h2
        unfold valueCount at hpos
        obtain ⟨v, hv, hvk⟩ := List.countP_pos_iff.1 hpos
        exact ⟨v, hv, by simpa using hvk⟩
      · intro hin
        exact (List.nodup_append.1 hSnd2).2.2 hin hk
  refine ⟨?_, ?_, ?_, ?_, ?_, ?_, ?_, hleft, hleftnd, ?_⟩
  · rw [hout, List.length_take, hperm.length_eq, hlenM]
  · rw [hout]
    exact List.length_take_le n S
  · rw [hout]
    exact (List.nodup_append.1 hSnd2).1
  · intro p hp
    obtain ⟨_, h2, h3⟩ := hcount p (hmemOut p hp)
    exact ⟨(hkeys p.1).1 (List.mem_map.2 ⟨p, hmemOut p hp, rfl⟩), h2, h3⟩
  · intro p hp
    obtain ⟨h1, _, h3⟩ := hcount p (hmemOut p hp)
    exact ⟨h1, h3⟩
  · rw [hout]
    exact hsorted.sublist (List.take_sublist n S)
  · intro k hk hex hnot p hp
    obtain ⟨q, hq, hqk⟩ := hrest k hk hex hnot
    have hpw : (S.take n ++ S.drop n).Pairwise (fun a b => b.2 ≤ a.2) := by
      rw [hsplit]
      exact hsorted
    have := (List.pairwise_append.1 hpw).2.2 p hp q hq
    rw [← hqk, ← (hcount q (hmemRest q hq)).2.2]
    exact this
  · rw [hleftperm.map (valueCount arr) |>.sum_eq, List.map_map]
    have hcongr : (S.drop n).map (valueCount arr ∘ Prod.fst) = (S.drop n).map Prod.snd := by
      apply List.map_congr_left
      intro p hp
      exact ((hcount p (hmemRest p hp)).2.2).symm
    rw [hcongr, hout, ← List.sum_append, ← List.map_append, hsplit,
      (hperm.map Prod.snd).sum_eq, hsum]


/-! ## The percentage of female students -/

/-- The rounding error of the two double operations behind `femalePct`: for
`0 ≤ f ≤ t` the computed `fl (fl (f / t) * 100)` is within `2⁻³⁴` of
`100 * f / t`. -/
theorem femalePct_error (fl : ℚ → ℚ) (hfl : ∀ x : ℚ, |fl x - x| ≤ |x| / 2 ^ 53)
    (F T : ℚ) (hF : 0 ≤ F) (hFT : F ≤ T) (hT : 0 < T) :
    |fl (fl (F / T) * 100) - 100 * F / T| ≤ 1 / 2 ^ 34 := by
  have ha0 : 0 ≤ F / T := div_nonneg hF hT.le
  have ha1 : F / T ≤ 1 := (div_le_one hT).2 hFT
  have h1 := hfl (F / T)
  rw [abs_of_nonneg ha0] at h1
  have h1' := abs_le.1 h1
  have h2 := hfl (fl (F / T) * 100)
  have hb : |fl (F / T) * 100| ≤ 200 := by
    rw [abs_le]
    constructor <;> nlinarith [h1'.1, h1'.2]
  have h2' := abs_le.1 (h2.trans (div_le_div_of_nonneg_right hb (by positivity)))
  have hx : 100 * F / T = 100 * (F / T) := by ring
  rw [hx, abs_le]
  constructor <;> norm_num at * <;> nlinarith [h1'.1, h1'.2, h2'.1, h2'.2]


/-- A whole number obtained by `Math.round` from a value within `2⁻³⁴` of
`100 * f / t` is a nearest whole number of `100 * f / t` and lies in 0..100. -/
theorem round_near (f t : Nat) (hft : f ≤ t) (ht0 : 0 < t) (ht : t < 2 ^ 32) (y : ℚ)
    (hy : |y - 100 * (f : ℚ) / (t : ℚ)| ≤ 1 / 2 ^ 34) :
    0 ≤ mathRound y ∧ mathRound y ≤ 100 ∧
      |((mathRound y : Int) : ℚ) - 100 * (f : ℚ) / (t : ℚ)| ≤ 1 / 2 := by
  have hT : (0 : ℚ) < (t : ℚ) := by exact_mod_cast ht0
  have hT2 : (t : ℚ) < 2 ^ 32 := by exact_mod_cast ht
  have hF : (0 : ℚ) ≤ (f : ℚ) := by exact_mod_cast Nat.zero_le f
  have hFT : (f : ℚ) ≤ (t : ℚ) := by exact_mod_cast hft
  set x : ℚ := 100 * (f : ℚ) / (t : ℚ) with hx
  have hxT : x * (t : ℚ) = 100 * (f : ℚ) := by
    rw [hx]; field_simp
  have hx0 : 0 ≤ x := by rw [hx]; positivity
  have hx100 : x ≤ 100 := by
    rw [hx, div_le_iff₀ hT]; linarith
  obtain ⟨hy1, hy2⟩ := abs_le.1 hy
  have hk1 : ((mathRound y : Int) : ℚ) ≤ y + 1 / 2 := Int.floor_le _
  have hk2 : y + 1 / 2 < ((mathRound y : Int) : ℚ) + 1 := Int.lt_floor_add_one _
  set k : Int := mathRound y with hk
  have hη : (1 : ℚ) / 2 ^ 34 < 1 / 2 := by norm_num
  have hkq0 : (-1 : ℚ) < (k : ℚ) := by linarith
  have hkq100 : (k : ℚ) < 101 := by linarith
  have hk0 : 0 ≤ k := by
    have : (-1 : Int) < k := by exact_mod_cast hkq0
    omega
  have hk100 : k ≤ 100 := by
    have : k < (101 : Int) := by exact_mod_cast hkq100
    omega
  refine ⟨hk0, hk100, ?_⟩
  rw [abs_le]
  constructor
  · -- `x ≤ k + 1/2`
    by_contra hcon
    have hlt : (k : ℚ) + 1 / 2 < x := by linarith
    have h1 : (2 * (k : ℚ) + 1) * (t : ℚ) < 200 * (f : ℚ) := by nlinarith
    have h2 : (2 * k + 1) * (t : Int) < 200 * (f : Int) := by exact_mod_cast h1
    have h3 : (2 * k + 1) * (t : Int) + 1 ≤ 200 * (f : Int) := h2
    have h4 : (2 * (k : ℚ) + 1) * (t : ℚ) + 1 ≤ 200 * (f : ℚ) := by exact_mod_cast h3
    have hxk : x < (k : ℚ) + 1 / 2 + 1 / 2 ^ 34 := by linarith
    have h5 : x * (t : ℚ) < ((k : ℚ) + 1 / 2 + 1 / 2 ^ 34) * (t : ℚ) :=
      mul_lt_mul_of_pos_right hxk hT
    have h6 : (t : ℚ) / 2 ^ 34 < 1 / 4 := by
      rw [div_lt_iff₀ (by positivity)]
      norm_num at hT2 ⊢
      linarith
    have e : ((k : ℚ) + 1 / 2 + 1 / 2 ^ 34) * (t : ℚ) =
        (k : ℚ) * (t : ℚ) + (t : ℚ) / 2 + (t : ℚ) / 2 ^ 34 := by ring
    rw [e, hxT] at h5
    linarith
  · -- `k - 1/2 ≤ x`
    by_contra hcon
    have hlt : x < (k : ℚ) - 1 / 2 := by linarith
    have h1 : 200 * (f : ℚ) < (2 * (k : ℚ) - 1) * (t : ℚ) := by nlinarith
    have h2 : 200 * (f : Int) < (2 * k - 1) * (t : Int) := by exact_mod_cast h1
    have h3 : 200 * (f : Int) + 1 ≤ (2 * k - 1) * (t : Int) := h2
    have h4 : 200 * (f : ℚ) + 1 ≤ (2 * (k : ℚ) - 1) * (t : ℚ) := by exact_mod_cast h3
    have hxk : (k : ℚ) - 1 / 2 - 1 / 2 ^ 34 ≤ x := by linarith
    have h5 : ((k : ℚ) - 1 / 2 - 1 / 2 ^ 34) * (t : ℚ) ≤ x * (t : ℚ) :=
      mul_le_mul_of_nonneg_right hxk hT.le
    have h6 : (t : ℚ) / 2 ^ 34 < 1 / 4 := by
      rw [div_lt_iff₀ (by positivity)]
      norm_num at hT2 ⊢
      linarith
    have e : ((k : ℚ) - 1 / 2 - 1 / 2 ^ 34) * (t : ℚ) =
        (k : ℚ) * (t : ℚ) - (t : ℚ) / 2 - (t : ℚ) / 2 ^ 34 := by ring
    rw [e, hxT] at h5
    linarith


/-! ## Double arithmetic and exact arithmetic agree in `computeAge` -/

theorem FloatModel.neg_of_neg {fl : ℚ → ℚ} (h : FloatModel fl) {x : ℚ} (hx : x < 0) :
    fl x < 0 := by
  have h1 := (abs_le.1 (h.1 x)).2
  rw [abs_of_neg hx] at h1
  have : (-x) / 2 ^ 53 < -x := by
    rw [div_lt_iff₀ (by positivity)]
    nlinarith
  linarith

theorem FloatModel.int_le {fl : ℚ → ℚ} (h : FloatModel fl) (z : Int) (hz : |z| ≤ 2 ^ 53)
    {x : ℚ} (hx : (z : ℚ) ≤ x) : (z : ℚ) ≤ fl x := by
  have := h.2.1 _ _ hx
  rwa [h.2.2 z hz] at this

theorem FloatModel.le_int {fl : ℚ → ℚ} (h : FloatModel fl) (z : Int) (hz : |z| ≤ 2 ^ 53)
    {x : ℚ} (hx : x ≤ (z : ℚ)) : fl x ≤ (z : ℚ) := by
  have := h.2.1 _ _ hx
  rwa [h.2.2 z hz] at this

/-- The floor of the rounded quotient by the year length selects the same age
in 0..100 as integer division, for an exactly known difference. -/
theorem floor_fl_div_year {fl : ℚ → ℚ} (h : FloatModel fl) (D : Int) :
    (if 0 ≤ ⌊fl ((D : ℚ) / 31557600000)⌋ ∧ ⌊fl ((D : ℚ) / 31557600000)⌋ ≤ 100
      then some ⌊fl ((D : ℚ) / 31557600000)⌋ else none) =
    (if 0 ≤ D / 31557600000 ∧ D / 31557600000 ≤ 100 then some (D / 31557600000) else none) := by
  have hY : (0 : ℚ) < 31557600000 := by norm_num
  rcases lt_or_le D 0 with hneg | hnn
  · -- a negative difference
    have hq : (D : ℚ) / 31557600000 < 0 := div_neg_of_neg_of_pos (by exact_mod_cast hneg) hY
    have hfl := h.neg_of_neg hq
    have h1 : ⌊fl ((D : ℚ) / 31557600000)⌋ < 0 := by
      rw [Int.floor_lt]; exact_mod_cast hfl
    have h2 : D / 31557600000 < 0 := by omega
    rw [if_neg (by omega), if_neg (by omega)]
  · rcases le_or_lt (101 * 31557600000) D with hbig | hsmall
    · -- an age above 100
      have hq : ((101 : Int) : ℚ) ≤ (D : ℚ) / 31557600000 := by
        rw [le_div_iff₀ hY]; exact_mod_cast hbig
      have hfl := h.int_le 101 (by norm_num) hq
      have h1 : 101 ≤ ⌊fl ((D : ℚ) / 31557600000)⌋ := by
        rw [Int.le_floor]; exact hfl
      have h2 : 101 ≤ D / 31557600000 := by omega
      rw [if_neg (by omega), if_neg (by omega)]
    · -- an age in 0..100: the floor is exact
      have hk0 : 0 ≤ D / 31557600000 := by omega
      have hk100 : D / 31557600000 ≤ 100 := by omega
      have hfloor : ⌊fl ((D : ℚ) / 31557600000)⌋ = D / 31557600000 := by
        rw [Int.floor_eq_iff]
        have hklo : (D / 31557600000) * 31557600000 ≤ D := by omega
        have hkhi : D + 1 ≤ (D / 31557600000 + 1) * 31557600000 := by omega
        have hklo' : ((D / 31557600000 : Int) : ℚ) * 31557600000 ≤ (D : ℚ) := by
          exact_mod_cast hklo
        have hkhi' : (D : ℚ) + 1 ≤ (((D / 31557600000 : Int) : ℚ) + 1) * 31557600000 := by
          exact_mod_cast hkhi
        have hkq0 : (0 : ℚ) ≤ ((D / 31557600000 : Int) : ℚ) := by exact_mod_cast hk0
        have hkq100 : ((D / 31557600000 : Int) : ℚ) ≤ 100 := by exact_mod_cast hk100
        constructor
        · apply h.int_le _ (by
            rw [abs_of_nonneg hk0]
            have : D / 31557600000 ≤ 2 ^ 53 := le_trans hk100 (by norm_num)
            exact this)
          rw [le_div_iff₀ hY]
          exact hklo'
        · have hq0 : 0 ≤ (D : ℚ) / 31557600000 :=
            div_nonneg (by exact_mod_cast hnn) hY.le
          have herr := (abs_le.1 (h.1 ((D : ℚ) / 31557600000))).2
          rw [abs_of_nonneg hq0] at herr
          have hq1 : (D : ℚ) / 31557600000 ≤
              ((D / 31557600000 : Int) : ℚ) + 1 - 1 / 31557600000 := by
            rw [div_le_iff₀ hY]
            have e : (((D / 31557600000 : Int) : ℚ) + 1 - 1 / 31557600000) * 31557600000 =
                (((D / 31557600000 : Int) : ℚ) + 1) * 31557600000 - 1 := by ring
            rw [e]
            linarith
          have hq2 : (D : ℚ) / 31557600000 ≤ 101 := by linarith
          have hε : (D : ℚ) / 31557600000 / 2 ^ 53 < 1 / 31557600000 := by
            rw [div_lt_iff₀ (by positivity)]
            norm_num
            linarith
          linarith
      rw [hfloor]


theorem floatModel_id : FloatModel id := by
  refine ⟨fun x => ?_, fun x y hxy => hxy, fun z _ => rfl⟩
  simp only [id, sub_self, abs_zero]
  positivity

/-- The age selected from the rounded difference and quotient is the age of
exact arithmetic. -/
theorem age_fl_exact {fl : ℚ → ℚ} (h : FloatModel fl) (now t : Int) :
    (if 0 ≤ ⌊fl (fl ((now : ℚ) - (t : ℚ)) / 31557600000)⌋ ∧
        ⌊fl (fl ((now : ℚ) - (t : ℚ)) / 31557600000)⌋ ≤ 100
      then some ⌊fl (fl ((now : ℚ) - (t : ℚ)) / 31557600000)⌋ else none) =
    ageOfTime now t := by
  have hY : (0 : ℚ) < 31557600000 := by norm_num
  have hcast : ((now : ℚ) - (t : ℚ)) = ((now - t : Int) : ℚ) := by push_cast; rfl
  rw [hcast]
  unfold ageOfTime
  simp only []
  generalize now - t = D
  rcases le_or_lt |D| (2 ^ 53) with hsmall | hlarge
  · rw [h.2.2 D hsmall]
    exact floor_fl_div_year h D
  · rcases le_or_lt 0 D with hpos | hneg
    · rw [abs_of_nonneg hpos] at hlarge
      have h1 : ((2 ^ 53 : Int) : ℚ) ≤ fl (D : ℚ) :=
        h.int_le (2 ^ 53) (by norm_num) (by exact_mod_cast hlarge.le)
      have h2 : ((101 : Int) : ℚ) ≤ fl (D : ℚ) / 31557600000 := by
        rw [le_div_iff₀ hY]
        norm_num at h1 ⊢
        linarith
      have h3 := h.int_le 101 (by norm_num) h2
      have h4 : 101 ≤ ⌊fl (fl (D : ℚ) / 31557600000)⌋ := by
        rw [Int.le_floor]; exact h3
      have h5 : 101 ≤ D / 31557600000 := by
        norm_num at hlarge
        omega
      rw [if_neg (by omega), if_neg (by omega)]
    · rw [abs_of_neg hneg] at hlarge
      have h1 : fl (D : ℚ) ≤ ((-(2 ^ 53) : Int) : ℚ) :=
        h.le_int (-(2 ^ 53)) (by norm_num) (by
          have : D ≤ -(2 ^ 53) := by omega
          exact_mod_cast this)
      have h2 : fl (D : ℚ) / 31557600000 < 0 := by
        apply div_neg_of_neg_of_pos _ hY
        norm_num at h1
        linarith
      have h3 := h.neg_of_neg h2
      have h4 : ⌊fl (fl (D : ℚ) / 31557600000)⌋ < 0 := by
        rw [Int.floor_lt]; exact_mod_cast h3
      have h5 : D / 31557600000 < 0 := by omega
      rw [if_neg (by omega), if_neg (by omega)]


/-- The time value of the rounded serial conversion is the time value of the
exact one. -/
theorem timeClip_serial_fl {fl : ℚ → ℚ} (h : FloatModel fl) (n : Int) :
    timeClip (fl ((excelEpoch : ℚ) + fl ((n : ℚ) * 86400000))) =
      timeClip ((excelEpoch + n * 86400000 : Int) : ℚ) := by
  have hcastP : ((n : ℚ) * 86400000) = ((n * 86400000 : Int) : ℚ) := by push_cast; rfl
  rw [hcastP]
  have hE : (excelEpoch : ℚ) = -2209161600000 := by simp [excelEpoch]
  have hEi : excelEpoch = -2209161600000 := rfl
  generalize hP : n * 86400000 = P
  have hb : ((2 ^ 53 : Int) : ℚ) = 9007199254740992 := by norm_num
  have hbn : ((-(2 ^ 53) : Int) : ℚ) = -9007199254740992 := by norm_num
  have hnone : ∀ x : ℚ, 8640000000000000 < |x| → timeClip x = none := by
    intro x hx
    unfold timeClip
    rw [if_neg (not_le.2 hx)]
  rcases le_or_lt |P| (2 ^ 53) with hsmall | hlarge
  · rw [h.2.2 P hsmall]
    have hcastS : (excelEpoch : ℚ) + (P : ℚ) = ((excelEpoch + P : Int) : ℚ) := by push_cast; rfl
    rw [hcastS]
    rcases le_or_lt |excelEpoch + P| (2 ^ 53) with hs | hl
    · rw [h.2.2 _ hs]
    · -- both sums are out of the range of time values
      have hex : (8640000000000000 : ℚ) < |((excelEpoch + P : Int) : ℚ)| := by
        rw [← Int.cast_abs]
        have : (8640000000000000 : Int) < |excelEpoch + P| := lt_trans (by norm_num) hl
        exact_mod_cast this
      rw [hnone _ hex]
      apply hnone
      rcases le_or_lt 0 (excelEpoch + P) with hp | hn
      · rw [abs_of_nonneg hp] at hl
        have := h.int_le (2 ^ 53) (by norm_num) (x := ((excelEpoch + P : Int) : ℚ))
          (by exact_mod_cast hl.le)
        rw [lt_abs]; left
        rw [hb] at this
        linarith
      · rw [abs_of_neg hn] at hl
        have := h.le_int (-(2 ^ 53)) (by norm_num) (x := ((excelEpoch + P : Int) : ℚ))
          (by have : excelEpoch + P ≤ -(2 ^ 53) := by omega
              exact_mod_cast this)
        rw [lt_abs]; right
        rw [hbn] at this
        linarith
  · have hex : (8640000000000000 : ℚ) < |((excelEpoch + P : Int) : ℚ)| := by
      rw [← Int.cast_abs]
      have : (8640000000000000 : Int) < |excelEpoch + P| := by
        rw [hEi, lt_abs]
        rcases lt_abs.1 hlarge with h1 | h1
        · left; norm_num at h1; omega
        · right; norm_num at h1; omega
      exact_mod_cast this
    rw [hnone _ hex]
    apply hnone
    rcases lt_abs.1 hlarge with hp | hn
    · have h1 := h.int_le (2 ^ 53) (by norm_num) (x := (P : ℚ)) (by exact_mod_cast hp.le)
      have h2 := h.int_le 9000000000000000 (by norm_num)
        (x := (excelEpoch : ℚ) + fl (P : ℚ)) (by
          rw [hE]; norm_num at h1 ⊢; linarith)
      rw [lt_abs]; left
      norm_num at h2
      linarith
    · have h1 := h.le_int (-(2 ^ 53)) (by norm_num) (x := (P : ℚ)) (by
        have : P ≤ -(2 ^ 53) := by omega
        exact_mod_cast this)
      have h2 := h.le_int (-(2 ^ 53)) (by norm_num)
        (x := (excelEpoch : ℚ) + fl (P : ℚ)) (by
          rw [hE]; norm_num at h1 ⊢; linarith)
      rw [lt_abs]; right
      norm_num at h2
      linarith

/-- Under the standard model of double rounding `computeAge` computes what
exact arithmetic computes, for every dob value, clock and date parser. -/
theorem computeAge_float_exact {fl : ℚ → ℚ} (h : FloatModel fl)
    (parse : String → Option Int) (now : Int) (dob : JSVal) :
    computeAge fl parse now dob = computeAge id parse now dob := by
  have key : ∀ d : Option (Option Int),
      (match d with
        | none => none
        | some none => none
        | some (some t) =>
          let diff : ℚ := fl ((now : ℚ) - (t : ℚ))
          let age : Int := ⌊fl (diff / 31557600000)⌋
          if 0 ≤ age ∧ age ≤ 100 then some age else none) =
      (match d with
        | none => none
        | some none => none
        | some (some t) =>
          let diff : ℚ := id ((now : ℚ) - (t : ℚ))
          let age : Int := ⌊id (diff / 31557600000)⌋
          if 0 ≤ age ∧ age ≤ 100 then some age else none) := by
    intro d
    rcases d with _ | _ | t
    · rfl
    · rfl
    · exact (age_fl_exact h now t).trans (age_fl_exact floatModel_id now t).symm
  unfold computeAge
  split
  · rfl
  · cases dob with
    | num n =>
      simp only [timeClip_serial_fl h n, timeClip_serial_fl floatModel_id n]
      exact key _
    | undefined => exact key _
    | null => exact key _
    | bool b => exact key _
    | str s => exact key _


/-! ## Double rounding at a tie of the percentage -/

theorem roundHalfEven_eq (y : ℚ) (m : Int) (h : |y - m| < 1 / 2) : roundHalfEven y = m := by
  obtain ⟨h1, h2⟩ := abs_lt.1 h
  unfold roundHalfEven
  simp only []
  rcases le_or_lt (m : ℚ) y with hge | hlt
  · have hf : ⌊y⌋ = m := by
      rw [Int.floor_eq_iff]
      constructor <;> linarith
    rw [hf, if_pos (by linarith)]
  · have hf : ⌊y⌋ = m - 1 := by
      rw [Int.floor_eq_iff]
      push_cast
      constructor <;> linarith
    rw [hf]
    push_cast
    rw [if_neg (by linarith), if_pos (by linarith)]
    ring

theorem flDouble_eq (x : ℚ) (e m : Int) (hlo : (2 : ℚ) ^ (e + 52) ≤ |x|)
    (hhi : |x| < (2 : ℚ) ^ (e + 53)) (hm : |x / (2 : ℚ) ^ e - m| < 1 / 2) :
    flDouble x = (m : ℚ) * (2 : ℚ) ^ e := by
  have hpos : 0 < |x| := lt_of_lt_of_le (by positivity) hlo
  have hx : x ≠ 0 := abs_pos.1 hpos
  have hlog : Int.log 2 |x| = e + 52 := by
    apply le_antisymm
    · have : Int.log 2 |x| < e + 53 := by
        rw [← Int.lt_zpow_iff_log_lt (by norm_num) hpos]
        exact_mod_cast hhi
      omega
    · rw [← Int.zpow_le_iff_le_log (by norm_num) hpos]
      exact_mod_cast hlo
  unfold flDouble
  rw [if_neg hx]
  simp only [hlog, add_sub_cancel_right]
  rw [roundHalfEven_eq _ m hm]


theorem roundHalfEven_error (y : ℚ) : |(roundHalfEven y : ℚ) - y| ≤ 1 / 2 := by
  have h1 : (⌊y⌋ : ℚ) ≤ y := Int.floor_le y
  have h2 : y < (⌊y⌋ : ℚ) + 1 := Int.lt_floor_add_one y
  unfold roundHalfEven
  simp only []
  rw [abs_le]
  split_ifs with ha hb hc
  · constructor <;> linarith
  · push_cast
    constructor <;> linarith
  · constructor <;> linarith
  · push_cast
    constructor <;> linarith

/-- Rounding to the nearest double has a relative error of at most `2⁻⁵³`. -/
theorem flDouble_error (x : ℚ) : |flDouble x - x| ≤ |x| / 2 ^ 53 := by
  unfold flDouble
  split_ifs with hx
  · simp [hx]
  · have hpos : 0 < |x| := abs_pos.2 hx
    have hlog : ((2 : ℕ) : ℚ) ^ Int.log 2 |x| ≤ |x| := Int.zpow_log_le_self (by norm_num) hpos
    simp only []
    generalize Int.log 2 |x| = L at hlog ⊢
    have hp : (0 : ℚ) < (2 : ℚ) ^ (L - 52) := by positivity
    have hr := roundHalfEven_error (x / (2 : ℚ) ^ (L - 52))
    have e1 : (roundHalfEven (x / (2 : ℚ) ^ (L - 52)) : ℚ) * (2 : ℚ) ^ (L - 52) - x =
        ((roundHalfEven (x / (2 : ℚ) ^ (L - 52)) : ℚ) - x / (2 : ℚ) ^ (L - 52)) *
          (2 : ℚ) ^ (L - 52) := by
      field_simp
    rw [e1, abs_mul, abs_of_pos hp]
    have e2 : (2 : ℚ) ^ L = (2 : ℚ) ^ (L - 52) * 2 ^ 52 := by
      rw [← zpow_natCast (2 : ℚ) 52, ← zpow_add₀ (by norm_num : (2 : ℚ) ≠ 0)]
      congr 1
      ring
    have hlog2 : (2 : ℚ) ^ (L - 52) * 2 ^ 52 ≤ |x| := by
      rw [← e2]
      exact_mod_cast hlog
    rw [le_div_iff₀ (by positivity)]
    have hmul : |(roundHalfEven (x / (2 : ℚ) ^ (L - 52)) : ℚ) - x / (2 : ℚ) ^ (L - 52)| *
        (2 : ℚ) ^ (L - 52) ≤ 1 / 2 * (2 : ℚ) ^ (L - 52) :=
      mul_le_mul_of_nonneg_right hr hp.le
    have e3 : (1 : ℚ) / 2 * (2 : ℚ) ^ (L - 52) * 2 ^ 53 = (2 : ℚ) ^ (L - 52) * 2 ^ 52 := by
      ring
    nlinarith [hmul, hlog2, e3]


theorem flDouble_23_40 :
    flDouble ((23 : ℚ) / 40) = (5179139571476070 : Int) * (2 : ℚ) ^ (-53 : Int) := by
  apply flDouble_eq
  · rw [abs_of_pos (by norm_num)]
    norm_num
  · rw [abs_of_pos (by norm_num)]
    norm_num
  · rw [abs_lt]
    constructor <;> norm_num

theorem flDouble_23_40_times_100 :
    flDouble ((5179139571476070 : Int) * (2 : ℚ) ^ (-53 : Int) * 100) =
      (8092405580431359 : Int) * (2 : ℚ) ^ (-47 : Int) := by
  apply flDouble_eq
  · rw [abs_of_pos (by norm_num)]
    norm_num
  · rw [abs_of_pos (by norm_num)]
    norm_num
  · rw [abs_lt]
    constructor <;> norm_num

theorem femalePct_tieData : femalePct flDouble tieData = some 57 := by
  have h1 : tieData.length = 40 := by decide
  have h2 : (tieData.filter (fun r => r.gender = "F")).length = 23 := by decide
  simp only [femalePct, jsDiv, h1, h2]
  norm_num
  rw [flDouble_23_40, flDouble_23_40_times_100]
  unfold mathRound
  rw [Int.floor_eq_iff]
  constructor <;> norm_num

/-! ## The percentage of female students: statement -/

/-- C9 (counterexample): for a view of 40 records, 23 of them female, the
exact percentage is 57.5, which rounds to 58 (half up as `Math.round` does, and
half to even alike); the doubles of `(females/total)*100` give
57.49999999999999 and the value shown is 57. -/
theorem femalePct_tie_counterexample :
    tieData.length = 40 ∧
    (tieData.filter (fun r => r.gender = "F")).length = 23 ∧
    mathRound (100 * (23 : ℚ) / 40) = 58 ∧
    roundHalfEven (100 * (23 : ℚ) / 40) = 58 ∧
    femalePct flDouble tieData = some 57 := by
  refine ⟨by decide, by decide, ?_, ?_, femalePct_tieData⟩
  · unfold mathRound
    rw [Int.floor_eq_iff]
    constructor <;> norm_num
  · unfold roundHalfEven
    have hf : ⌊(100 * (23 : ℚ) / 40)⌋ = 57 := by
      rw [Int.floor_eq_iff]
      constructor <;> norm_num
    simp only [hf]
    norm_num

/-- C9 (amended): under the standard model of double rounding (relative error
at most `2⁻⁵³`) and for a view of fewer than `2³²` records, the
percentage-female value is 0 on the empty view and otherwise a whole number
within 1/2 of `100 * females / total`: that value rounded to the nearest
integer, except that a value exactly halfway between two integers may give the
lower one; it is always a whole number between 0 and 100, never a non-finite
value, and the division is only evaluated for a non-zero total. -/
theorem femalePct_spec (fl : ℚ → ℚ) (hfl : ∀ x : ℚ, |fl x - x| ≤ |x| / 2 ^ 53)
    (data : List StudentRecord) (hlen : data.length < 2 ^ 32) :
    (data = [] → femalePct fl data = some 0) ∧
    ∃ k : Int, femalePct fl data = some k ∧ 0 ≤ k ∧ k ≤ 100 ∧
      (data ≠ [] →
        |(k : ℚ) - 100 * ((data.filter (fun r => r.gender = "F")).length : ℚ) /
          (data.length : ℚ)| ≤ 1 / 2 ∧
        (k = mathRound (100 * ((data.filter (fun r => r.gender = "F")).length : ℚ) /
            (data.length : ℚ)) ∨
          (k : ℚ) + 1 / 2 = 100 * ((data.filter (fun r => r.gender = "F")).length : ℚ) /
            (data.length : ℚ))) := by
  constructor
  · intro h
    subst h
    rfl
  · by_cases hd : data.length = 0
    · refine ⟨0, ?_, le_refl _, by norm_num, ?_⟩
      · simp [femalePct, hd]
      · intro hne
        exact absurd (List.length_eq_zero.1 hd) hne
    · have ht0 : 0 < data.length := Nat.pos_of_ne_zero hd
      have hft : (data.filter (fun r => r.gender = "F")).length ≤ data.length :=
        List.length_filter_le _ _
      have herr := femalePct_error fl hfl
        ((data.filter (fun r => r.gender = "F")).length : ℚ) (data.length : ℚ)
        (by exact_mod_cast Nat.zero_le _) (by exact_mod_cast hft) (by exact_mod_cast ht0)
      obtain ⟨h0, h100, hnear⟩ := round_near _ _ hft ht0 hlen _ herr
      refine ⟨_, ?_, h0, h100, fun _ => ⟨hnear, ?_⟩⟩
      · simp [femalePct, jsDiv, hd]
      · obtain ⟨hn1, hn2⟩ := abs_le.1 hnear
        rcases lt_or_le (100 * ((data.filter (fun r => r.gender = "F")).length : ℚ) /
            (data.length : ℚ)) (((mathRound (fl (fl
              (((data.filter (fun r => r.gender = "F")).length : ℚ) / (data.length : ℚ)) *
                100)) : Int) : ℚ) + 1 / 2) with hlt | hge
        · left
          symm
          unfold mathRound at hlt hn2 ⊢
          rw [Int.floor_eq_iff]
          constructor <;> linarith
        · right
          linarith

theorem femalePct_spec_witness :
    (∀ x : ℚ, |flDouble x - x| ≤ |x| / 2 ^ 53) ∧ tieData.length < 2 ^ 32 ∧
    femalePct flDouble tieData = some 57 ∧
    ∃ k : Int, femalePct flDouble tieData = some k ∧ 0 ≤ k ∧ k ≤ 100 ∧
      (tieData ≠ [] →
        |(k : ℚ) - 100 * ((tieData.filter (fun r => r.gender = "F")).length : ℚ) /
          (tieData.length : ℚ)| ≤ 1 / 2 ∧
        (k = mathRound (100 * ((tieData.filter (fun r => r.gender = "F")).length : ℚ) /
            (tieData.length : ℚ)) ∨
          (k : ℚ) + 1 / 2 = 100 * ((tieData.filter (fun r => r.gender = "F")).length : ℚ) /
            (tieData.length : ℚ))) :=
  ⟨flDouble_error, by decide, femalePct_tieData,
    (femalePct_spec flDouble flDouble_error tieData (by decide)).2⟩

end StudentDashboard
